import Mathlib

/-!
Verification development for the swagger2mcp core pipeline
(`internal/spec/loader.go`, `internal/spec/v2compat.go`).

The Go code is shallowly embedded:
  * Go strings are Lean `String`; the `strings` helpers used by the code
    (`TrimSpace`, `EqualFold`, `Contains`, `HasPrefix`, `ToLower`) are
    re-implemented over `String.data` so that they evaluate by `decide`.
    Case folding is modelled on ASCII, which is what every comparison in
    the code uses ("body", "formData", "file", HTTP method names, ...).
  * Go `map[string]any` values (the generic YAML document tree) are
    association lists with unique keys; `amGet`/`amSet` give Go map
    read/update semantics.
  * I/O (HTTP requests, the filesystem, the third-party kin-openapi
    loader/validator/converter and yaml marshal) is passed in as explicit
    oracle functions, so every pipeline function is pure and executable.
-/

/-! ## Strings: ASCII lowering, trimming, substring search -/

/-- ASCII lower-casing of a character (models the case folding used by
`strings.EqualFold` / `strings.ToLower` on the ASCII-only strings compared
in the code). -/
def lowerChar (c : Char) : Char :=
  if 'A' ≤ c ∧ c ≤ 'Z' then Char.ofNat (c.toNat + 32) else c

/-- Models `strings.ToLower` (ASCII). -/
def lowerStr (s : String) : String := ⟨s.data.map lowerChar⟩

/-- Models `strings.EqualFold` (ASCII case-insensitive equality). -/
def eqFold (a b : String) : Bool := lowerStr a == lowerStr b

/-- Trim whitespace from both ends of a character list. -/
def trimChars (l : List Char) : List Char :=
  (((l.dropWhile Char.isWhitespace).reverse.dropWhile Char.isWhitespace)).reverse

/-- Models `strings.TrimSpace`. -/
def trimSpace (s : String) : String := ⟨trimChars s.data⟩

/-- Models `strings.HasPrefix s pre`. -/
def hasPrefixStr (s pre : String) : Bool := pre.data.isPrefixOf s.data

/-- Substring occurrence over character lists (models `strings.Contains`). -/
def hasSubChars (hay needle : List Char) : Bool :=
  match hay with
  | [] => needle.isEmpty
  | _ :: rest => needle.isPrefixOf hay || hasSubChars rest needle

/-- Models `strings.Contains hay sub`. -/
def containsSub (hay sub : String) : Bool := hasSubChars hay.data sub.data

theorem length_dropWhile_le (p : Char → Bool) (l : List Char) :
    (l.dropWhile p).length ≤ l.length := by
  induction l with
  | nil => simp
  | cons a l ih => by_cases h : p a <;> simp [List.dropWhile_cons, h] <;> omega

theorem dropWhile_self_eq {p : Char → Bool} :
    ∀ l : List Char, (l.dropWhile p).dropWhile p = l.dropWhile p := by
  intro l
  induction l with
  | nil => simp
  | cons a l ih =>
      by_cases h : p a
      · simp [List.dropWhile_cons, h, ih]
      · simp [List.dropWhile_cons, h]

theorem head_fails_of_dropWhile_fix {p : Char → Bool} {a : Char} {l : List Char}
    (h : List.dropWhile p (a :: l) = a :: l) : p a = false := by
  by_contra hpa
  have hpa' : p a = true := by
    cases hp : p a
    · exact absurd hp hpa
    · rfl
  rw [List.dropWhile_cons, if_pos hpa'] at h
  have hle := length_dropWhile_le p l
  have hlen := congrArg List.length h
  simp at hlen
  omega

theorem dropWhile_fix_of_head_fails {p : Char → Bool} {a : Char} {l : List Char}
    (h : p a = false) : List.dropWhile p (a :: l) = a :: l := by
  simp [List.dropWhile_cons, h]

/-- Trimming is idempotent. -/
theorem trimChars_idem (l : List Char) : trimChars (trimChars l) = trimChars l := by
  unfold trimChars
  set p := Char.isWhitespace with hp
  set u := l.dropWhile p with hu
  set v := u.reverse.dropWhile p with hv
  -- `u` is a fixed point of dropWhile, and so is `v`.
  have hufix : u.dropWhile p = u := by rw [hu]; exact dropWhile_self_eq l
  have hvfix : v.dropWhile p = v := by rw [hv]; exact dropWhile_self_eq u.reverse
  -- decompose u.reverse = takeWhile ++ v
  have hsplit : u.reverse.takeWhile p ++ v = u.reverse := by
    rw [hv]; exact List.takeWhile_append_dropWhile p u.reverse
  -- first step: dropWhile on v.reverse is the identity
  have hdw : v.reverse.dropWhile p = v.reverse := by
    cases hvr : v.reverse with
    | nil => simp
    | cons b r =>
        -- head of v.reverse is the head of u (u = v.reverse ++ t)
        have hu2 : u = v.reverse ++ (u.reverse.takeWhile p).reverse := by
          have h3 := congrArg List.reverse hsplit
          simpa using h3.symm
        have hufix' : u.dropWhile p = u := hufix
        rw [hu2, hvr] at hufix'
        have hb : p b = false := by
          have h4 : List.dropWhile p (b :: (r ++ (u.reverse.takeWhile p).reverse))
              = b :: (r ++ (u.reverse.takeWhile p).reverse) := by
            simpa using hufix'
          exact head_fails_of_dropWhile_fix h4
        exact dropWhile_fix_of_head_fails hb
  rw [hdw]
  simp only [List.reverse_reverse]
  rw [hvfix]

theorem trimSpace_idem (s : String) : trimSpace (trimSpace s) = trimSpace s := by
  unfold trimSpace
  exact congrArg String.mk (trimChars_idem s.data)

/-! ## Association lists with Go-map semantics -/

/-- Go map read: first (unique) binding of the key. -/
def amGet {α : Type} : List (String × α) → String → Option α
  | [], _ => none
  | (k', v) :: rest, k => if k' = k then some v else amGet rest k

/-- Go map write: replace in place, or append a fresh binding. -/
def amSet {α : Type} : List (String × α) → String → α → List (String × α)
  | [], k, v => [(k, v)]
  | (k', v') :: rest, k, v =>
      if k' = k then (k, v) :: rest else (k', v') :: amSet rest k v

/-- Go `delete`: remove every binding of the key. -/
def amErase {α : Type} (m : List (String × α)) (k : String) : List (String × α) :=
  m.filter (fun p => p.1 ≠ k)

def keysOf {α : Type} (m : List (String × α)) : List String := m.map Prod.fst

theorem amGet_amSet {α : Type} (m : List (String × α)) (k k' : String) (v : α) :
    amGet (amSet m k v) k' = if k = k' then some v else amGet m k' := by
  induction m with
  | nil => by_cases h : k = k' <;> simp [amSet, amGet, h]
  | cons p rest ih =>
      obtain ⟨pk, pv⟩ := p
      by_cases h1 : pk = k
      · subst h1
        by_cases h2 : pk = k' <;> simp [amSet, amGet, h2]
      · by_cases h2 : pk = k'
        · subst h2
          have : ¬ k = pk := fun h => h1 h.symm
          simp [amSet, amGet, h1, this]
        · simp [amSet, amGet, h1, h2, ih]

theorem mem_keysOf_amSet {α : Type} (m : List (String × α)) (k a : String) (v : α) :
    a ∈ keysOf (amSet m k v) ↔ a ∈ keysOf m ∨ a = k := by
  induction m with
  | nil => simp [amSet, keysOf]
  | cons p rest ih =>
      obtain ⟨pk, pv⟩ := p
      by_cases h1 : pk = k
      · subst h1
        simp [amSet, keysOf]
        tauto
      · simp [amSet, keysOf, h1] at ih ⊢
        tauto

theorem nodup_keysOf_amSet {α : Type} (m : List (String × α)) (k : String) (v : α)
    (h : (keysOf m).Nodup) : (keysOf (amSet m k v)).Nodup := by
  induction m with
  | nil => simp [amSet, keysOf]
  | cons p rest ih =>
      obtain ⟨pk, pv⟩ := p
      have h' : pk ∉ keysOf rest ∧ (keysOf rest).Nodup := by
        simpa [keysOf] using h
      by_cases h1 : pk = k
      · subst h1
        simpa [amSet, keysOf] using h
      · have hrec := ih h'.2
        have hnotmem : pk ∉ keysOf (amSet rest k v) := by
          rw [mem_keysOf_amSet]
          rintro (hc | hc)
          · exact h'.1 hc
          · exact h1 hc
        have hgoal : (keysOf ((pk, pv) :: amSet rest k v)).Nodup := by
          simpa [keysOf] using List.Nodup.cons (l := keysOf (amSet rest k v))
            (by intro hc; exact hnotmem hc) hrec
        simpa [amSet, if_neg h1] using hgoal

theorem amGet_mem {α : Type} {m : List (String × α)} {k : String} {v : α}
    (h : amGet m k = some v) : (k, v) ∈ m := by
  induction m with
  | nil => simp [amGet] at h
  | cons p rest ih =>
      obtain ⟨pk, pv⟩ := p
      by_cases h1 : pk = k
      · subst h1
        simp [amGet] at h
        simp [h]
      · simp [amGet, h1] at h
        simp [ih h]

theorem mem_amGet {α : Type} {m : List (String × α)} {k : String} {v : α}
    (hnd : (keysOf m).Nodup) (h : (k, v) ∈ m) : amGet m k = some v := by
  induction m with
  | nil => simp at h
  | cons p rest ih =>
      obtain ⟨pk, pv⟩ := p
      simp [keysOf] at hnd
      rcases List.mem_cons.mp h with h | h
      · injection h with h1 h2
        subst h1; subst h2
        simp [amGet]
      · have hk : pk ≠ k := by
          intro he; subst he
          exact hnd.1 v h
        simp [amGet, hk]
        exact ih hnd.2 h

theorem amGet_amErase_self {α : Type} (m : List (String × α)) (k : String) :
    amGet (amErase m k) k = none := by
  induction m with
  | nil => simp [amErase, amGet]
  | cons p rest ih =>
      obtain ⟨pk, pv⟩ := p
      by_cases h1 : pk = k
      · subst h1
        simpa [amErase] using ih
      · simpa [amErase, amGet, h1] using ih

theorem amGet_amErase_ne {α : Type} (m : List (String × α)) (k k' : String)
    (h : k' ≠ k) : amGet (amErase m k) k' = amGet m k' := by
  induction m with
  | nil => simp [amErase, amGet]
  | cons p rest ih =>
      obtain ⟨pk, pv⟩ := p
      by_cases h1 : pk = k
      · subst h1
        have : ¬ pk = k' := fun he => h he.symm
        simpa [amErase, amGet, this] using ih
      · by_cases h2 : pk = k'
        · subst h2
          simp [amErase, amGet, h1]
        · simpa [amErase, amGet, h1, h2] using ih

/-! ## Sorting (models `sort.Strings` / `sort.Slice`) -/

/-- Byte-order comparison on strings (Go `<=` on strings). -/
def sLE (a b : String) : Prop := a.data ≤ b.data

instance : DecidableRel sLE := fun a b => inferInstanceAs (Decidable (a.data ≤ b.data))

instance : IsTotal String sLE := ⟨fun a b => le_total a.data b.data⟩

instance : IsTrans String sLE := ⟨fun _ _ _ h1 h2 => le_trans h1 h2⟩

/-- Models `sort.Strings` (the deterministic result of sorting a key slice). -/
def sortStrings (l : List String) : List String := List.insertionSort sLE l

theorem sortStrings_sorted (l : List String) : (sortStrings l).Pairwise sLE :=
  List.sorted_insertionSort sLE l

theorem mem_sortStrings {l : List String} {a : String} : a ∈ sortStrings l ↔ a ∈ l :=
  List.mem_insertionSort sLE

theorem sortStrings_nodup {l : List String} (h : l.Nodup) : (sortStrings l).Nodup :=
  ((List.perm_insertionSort sLE l).nodup_iff).mpr h

theorem string_lt_of_sLE_ne {a b : String} (h : sLE a b) (hne : a ≠ b) :
    a.data < b.data := by
  rcases lt_or_eq_of_le h with h | h
  · exact h
  · exfalso
    apply hne
    cases a; cases b
    exact congrArg String.mk h

/-- Sorted + nodup gives strictly increasing byte order. -/
theorem sortStrings_pairwise_lt {l : List String} (h : l.Nodup) :
    (sortStrings l).Pairwise (fun a b => a.data < b.data) := by
  have hs := sortStrings_sorted l
  have hn := sortStrings_nodup h
  exact (hs.and hn).imp (fun hab => string_lt_of_sLE_ne hab.1 hab.2)

/-! ## Generic YAML document tree (Go `any` after `yaml.Unmarshal`) -/

/-- Generic YAML/JSON value, the shape `yaml.Unmarshal` produces into
`map[string]any` / `[]any` / scalars. -/
inductive YVal : Type where
  | ynull : YVal
  | ybool : Bool → YVal
  | yint : Int → YVal
  | ystr : String → YVal
  | yarr : List YVal → YVal
  | ymap : List (String × YVal) → YVal

/-- A Go `map[string]any` node. -/
abbrev YMap := List (String × YVal)

/-- Models `asString(v any)` from v2compat.go: string cast, else `""`.
The `Option` input collapses Go's missing-key `nil` with a present value. -/
def asString : Option YVal → String
  | some (.ystr s) => s
  | _ => ""

/-- Convenience: `m[k].(string)` with `""` on failure (the `t, _ := ...` casts). -/
def strField (m : YMap) (k : String) : String := asString (amGet m k)

/-- Models `containsString(list []any, want string)` from v2compat.go. -/
def containsString (list : List YVal) (want : String) : Bool :=
  list.any fun v => match v with
    | .ystr s => s == want
    | _ => false

/-! ## v2compat.go: compatibility preprocessing of Swagger v2 documents -/

/-- Is this params-list entry a map with `in: body` (case-insensitive)?
Mirrors the `strings.EqualFold(asString(pm["in"]), "body")` test; non-map
entries (`pm == nil`) never count. -/
def paramIsBody : YVal → Bool
  | .ymap pm => eqFold (strField pm "in") "body"
  | _ => false

/-- Is this params-list entry a map with `in: formData` (case-insensitive)? -/
def paramIsFormData : YVal → Bool
  | .ymap pm => eqFold (strField pm "in") "formData"
  | _ => false

/-- The `bodyCount` accumulator of the counting loop in
`preprocessV2ForCompatibility`. -/
def bodyCount (params : List YVal) : Nat := (params.filter paramIsBody).length

/-- The `hasFormData` accumulator of the counting loop. -/
def hasFormData (params : List YVal) : Bool := params.any paramIsFormData

/-- Models `extractSchemaFromParam`: the `schema` map if present, otherwise a
schema synthesized from the parameter's `type`/`items`/`format`. -/
def extractSchemaFromParam (pm : YMap) : Option YMap :=
  match amGet pm "schema" with
  | some (.ymap sch) => some sch
  | _ =>
    let t := match amGet pm "type" with
      | some (.ystr s) => s
      | _ => ""
    if t = "" then none
    else
      let m : YMap := [("type", YVal.ystr t)]
      let m := match amGet pm "items" with
        | some (.ymap it) => amSet m "items" (.ymap it)
        | _ => m
      let m := match amGet pm "format" with
        | some (.ystr f) => if f = "" then m else amSet m "format" (.ystr f)
        | _ => m
      some m

/-- Does `sch["$ref"] != nil` hold? (present with a non-null value). -/
def refNonNil (sch : YMap) : Bool :=
  match amGet sch "$ref" with
  | some .ynull => false
  | some _ => true
  | none => false

/-- The type/format/items derivation of `formDataFromBodyParam`: first from
the parameter's `schema` (degrading `$ref`-only schemas to `string`), then —
when no type was found — from the parameter's own `type`/`items`/`format`. -/
def formDataTfi (pm : YMap) : String × String × Option YVal :=
  let fromSchema : String × String × Option YVal :=
    match amGet pm "schema" with
    | some (.ymap sch) =>
        let typ := strField sch "type"
        let items : Option YVal := match amGet sch "items" with
          | some (.ymap it) => some (.ymap it)
          | _ => none
        let format := strField sch "format"
        let typ := if typ = "" && refNonNil sch then "string" else typ
        (typ, format, items)
    | _ => ("", "", none)
  if fromSchema.1 = "" then
    let typ := match amGet pm "type" with
      | some (.ystr t) => t
      | _ => ""
    let items : Option YVal := match amGet pm "items" with
      | some (.ymap it) => some (.ymap it)
      | _ => fromSchema.2.2
    let format := match amGet pm "format" with
      | some (.ystr f) => f
      | _ => fromSchema.2.1
    (typ, format, items)
  else fromSchema

/-- The optional `description` binding copied by `formDataFromBodyParam`. -/
def descPieceOf (pm : YMap) : YMap :=
  match amGet pm "description" with
  | some (.ystr d) => if d = "" then [] else [("description", YVal.ystr d)]
  | _ => []

/-- The optional `required` binding copied by `formDataFromBodyParam`. -/
def reqPieceOf (pm : YMap) : YMap :=
  match amGet pm "required" with
  | some (.ybool r) => [("required", YVal.ybool r)]
  | _ => []

/-- Models `formDataFromBodyParam`. The successive Go map writes all use
distinct fresh keys, so the built map is written as one literal list. -/
def formDataFromBodyParam (pm : YMap) : YMap :=
  let name0 := asString (amGet pm "name")
  let name := if name0 = "" then "field" else name0
  let tfi := formDataTfi pm
  let typ := if tfi.1 = "" then "string" else tfi.1
  let itemsPiece : YMap := match tfi.2.2 with
    | some it => [("items", it)]
    | none => []
  let formatPiece : YMap :=
    if tfi.2.1 = "" then [] else [("format", YVal.ystr tfi.2.1)]
  [("in", YVal.ystr "formData"), ("name", YVal.ystr name)]
    ++ descPieceOf pm ++ reqPieceOf pm
    ++ [("type", YVal.ystr typ)] ++ itemsPiece ++ formatPiece

/-- The body→formData conversion loop of the mixed body+formData branch:
body params are converted, other map params kept, non-map entries dropped;
the boolean is the `modified` flag contribution. -/
def convertParams : List YVal → List YVal × Bool
  | [] => ([], false)
  | p :: rest =>
    let tail := convertParams rest
    match p with
    | .ymap pm =>
        if eqFold (strField pm "in") "body" then
          (YVal.ymap (formDataFromBodyParam pm) :: tail.1, true)
        else (YVal.ymap pm :: tail.1, tail.2)
    | _ => tail

/-- Ensures `consumes` contains "multipart/form-data" (lines 74-81). -/
def ensureConsumes (op : YMap) : YMap :=
  let consumes : List YVal := match amGet op "consumes" with
    | some (.yarr c) => c
    | _ => []
  if containsString consumes "multipart/form-data" then op
  else amSet op "consumes" (.yarr (consumes ++ [.ystr "multipart/form-data"]))

/-- The `rb, _ := pm["required"].(bool)` cast. -/
def reqBool (pm : YMap) : Bool :=
  match amGet pm "required" with
  | some (.ybool b) => b
  | _ => false

/-- The merge loop of the multiple-body branch (lines 90-106), threading the
`props` map, the `required` slice, the surviving `newParams` and the
`modified` flag through the iteration. -/
def mergeBodyStep (acc : YMap × List YVal × List YVal × Bool) (p : YVal) :
    YMap × List YVal × List YVal × Bool :=
  match p with
  | .ymap pm =>
      if eqFold (strField pm "in") "body" then
        let name0 := asString (amGet pm "name")
        let name := if name0 = "" then "field" else name0
        let schema : YMap := match extractSchemaFromParam pm with
          | some sch => sch
          | none => [("type", YVal.ystr "string")]
        (amSet acc.1 name (.ymap schema),
         if reqBool pm then acc.2.1 ++ [.ystr name] else acc.2.1,
         acc.2.2.1, true)
      else (acc.1, acc.2.1, acc.2.2.1 ++ [p], acc.2.2.2)
  | _ => acc

def mergeBody (params : List YVal) : YMap × List YVal × List YVal × Bool :=
  params.foldl mergeBodyStep ([], [], [], false)

/-- The synthetic body schema of the multiple-body merge: an object with the
collected `properties`, plus `required` when any body parameter was
individually required. -/
def bodySchemaOf (params : List YVal) : YMap :=
  let mb := mergeBody params
  let bodySchema : YMap :=
    [("type", YVal.ystr "object"), ("properties", YVal.ymap mb.1)]
  if 0 < mb.2.1.length then amSet bodySchema "required" (.yarr mb.2.1)
  else bodySchema

/-- The single synthetic `in: body` parameter named "body". -/
def mergedParamOf (params : List YVal) : YMap :=
  [("in", YVal.ystr "body"), ("name", YVal.ystr "body"),
   ("schema", YVal.ymap (bodySchemaOf params))]

/-- Models the per-operation rewrite (lines 43-117 of
`preprocessV2ForCompatibility`); returns the updated operation map and the
`modified` flag contribution of this operation. -/
def processOperation (op : YMap) : YMap × Bool :=
  match amGet op "parameters" with
  | some (.yarr params) =>
    if params.isEmpty then (op, false)
    else
      let bc := bodyCount params
      if bc = 0 then (op, false)
      else if hasFormData params then
        let conv := convertParams params
        (ensureConsumes (amSet op "parameters" (.yarr conv.1)), conv.2)
      else if 1 < bc then
        let mb := mergeBody params
        (amSet op "parameters"
          (.yarr (YVal.ymap (mergedParamOf params) :: mb.2.2.1)), mb.2.2.2)
      else (op, false)
  | _ => (op, false)

/-- HTTP method names recognized by the preprocessing switch (line 37; note
that `trace` is absent there). -/
def preMethods : List String :=
  ["get", "post", "put", "delete", "patch", "options", "head"]

/-- The per-path-item loop: each recognized operation entry is rewritten in
place. -/
def processPathItem (pi : YMap) : YMap × Bool :=
  pi.foldl
    (fun acc entry =>
      if preMethods.contains (lowerStr entry.1) then
        match entry.2 with
        | .ymap op =>
            let r := processOperation op
            (acc.1 ++ [(entry.1, YVal.ymap r.1)], acc.2 || r.2)
        | _ => (acc.1 ++ [entry], acc.2)
      else (acc.1 ++ [entry], acc.2))
    ([], false)

/-- The whole-document walk over `doc["paths"]`. -/
def processDoc (doc : YMap) : YMap × Bool :=
  match amGet doc "paths" with
  | some (.ymap paths) =>
    if paths.isEmpty then (doc, false)
    else
      let r := paths.foldl
        (fun acc entry =>
          match entry.2 with
          | .ymap pi =>
              let s := processPathItem pi
              (acc.1 ++ [(entry.1, YVal.ymap s.1)], acc.2 || s.2)
          | _ => (acc.1 ++ [entry], acc.2))
        ([], false)
      (amSet doc "paths" (.ymap r.1), r.2)
  | _ => (doc, false)

/-- Raw bytes, kept opaque. -/
abbrev RawBytes := List Nat

/-- Result of `preprocessV2ForCompatibility`: possibly-modified bytes, the
`modified` flag, and whether an error was returned. -/
structure PreOut where
  out : RawBytes
  modified : Bool
  errored : Bool
deriving DecidableEq

/-- Models `preprocessV2ForCompatibility(data)`. `parsed` is the outcome of
`yaml.Unmarshal(data, &doc)` and `marshal` the `yaml.Marshal` serializer
(total: marshalling a `map[string]any` tree does not fail). On a parse
error the original bytes come back with `modified=false` plus the error;
when nothing was modified the original bytes come back byte-identical. -/
def preprocessV2ForCompatibility (data : RawBytes) (parsed : Option YMap)
    (marshal : YMap → RawBytes) : PreOut :=
  match parsed with
  | none => ⟨data, false, true⟩
  | some doc =>
      let r := processDoc doc
      if r.2 then ⟨marshal r.1, true, false⟩ else ⟨data, false, false⟩

/-! ## Claim-side views of the preprocessing data -/

/-- The `parameters` array of an operation map (empty if absent). -/
def paramsArr (op : YMap) : List YVal :=
  match amGet op "parameters" with
  | some (.yarr l) => l
  | _ => []

/-- The property name a body parameter contributes (its `name`, defaulting
to "field"). -/
def defName (pm : YMap) : String :=
  let n := asString (amGet pm "name")
  if n = "" then "field" else n

/-- Names contributed by the body parameters of a params list, in order. -/
def bodyNamesOf (params : List YVal) : List String :=
  params.filterMap fun p => match p with
    | .ymap pm => if eqFold (strField pm "in") "body" then some (defName pm) else none
    | _ => none

/-- Names of body parameters individually marked `required: true`. -/
def reqNamesOf (params : List YVal) : List String :=
  params.filterMap fun p => match p with
    | .ymap pm =>
        if eqFold (strField pm "in") "body" && reqBool pm then some (defName pm)
        else none
    | _ => none

/-- The non-body map-valued parameters, in order (non-map entries dropped). -/
def nonBodyParams (params : List YVal) : List YVal :=
  params.filter fun p => match p with
    | .ymap pm => !eqFold (strField pm "in") "body"
    | _ => false

/-- The `properties` map of a schema node (empty if absent). -/
def propsOf (sch : YMap) : YMap :=
  match amGet sch "properties" with
  | some (.ymap ps) => ps
  | _ => []

/-- The `required` array of a schema node (empty if absent). -/
def requiredOf (sch : YMap) : List YVal :=
  match amGet sch "required" with
  | some (.yarr l) => l
  | _ => []

theorem bodyCount_cons (p : YVal) (rest : List YVal) :
    bodyCount (p :: rest) =
      (if paramIsBody p then 1 else 0) + bodyCount rest := by
  by_cases h : paramIsBody p <;> simp [bodyCount, List.filter_cons, h] <;> omega

theorem bodyCount_pos_ne_nil {params : List YVal} (h : 1 ≤ bodyCount params) :
    params ≠ [] := by
  intro he; subst he; simp [bodyCount] at h

/-! ## Lemmas about `formDataFromBodyParam` -/

theorem formData_in_eq (pm : YMap) :
    strField (formDataFromBodyParam pm) "in" = "formData" := by
  simp [formDataFromBodyParam, strField, amGet, asString]

theorem formData_not_body (pm : YMap) :
    paramIsBody (.ymap (formDataFromBodyParam pm)) = false := by
  simp [paramIsBody, formData_in_eq]
  decide

theorem amGet_append {α : Type} (l1 l2 : List (String × α)) (k : String) :
    amGet (l1 ++ l2) k =
      match amGet l1 k with
      | some v => some v
      | none => amGet l2 k := by
  induction l1 with
  | nil => simp [amGet]
  | cons p rest ih =>
      obtain ⟨pk, pv⟩ := p
      by_cases h : pk = k <;> simp [amGet, h, ih]

theorem amGet_piece_append {α : Type} (piece l : List (String × α)) (k : String)
    (h : ∀ kk ∈ keysOf piece, kk ≠ k) : amGet (piece ++ l) k = amGet l k := by
  induction piece with
  | nil => simp
  | cons p rest ih =>
      obtain ⟨pk, pv⟩ := p
      have hk : pk ≠ k := h pk (by simp [keysOf])
      have hrest : ∀ kk ∈ keysOf rest, kk ≠ k := fun kk hkk => h kk (by simp [keysOf] at hkk ⊢; tauto)
      simp [amGet, hk, ih hrest]

theorem descPieceOf_keys (pm : YMap) :
    ∀ kk ∈ keysOf (descPieceOf pm), kk = "description" := by
  unfold descPieceOf
  split
  · split <;> simp [keysOf]
  · simp [keysOf]

theorem reqPieceOf_keys (pm : YMap) :
    ∀ kk ∈ keysOf (reqPieceOf pm), kk = "required" := by
  unfold reqPieceOf
  split <;> simp [keysOf]

/-- Looking up `type` in the built formData parameter yields the derived
type (with the `string` default). -/
theorem formData_type_eq (pm : YMap) :
    strField (formDataFromBodyParam pm) "type"
      = (if (formDataTfi pm).1 = "" then "string" else (formDataTfi pm).1) := by
  unfold formDataFromBodyParam
  simp only [strField, List.append_assoc, List.cons_append, List.nil_append]
  rw [show ∀ (a b : YVal) (l : YMap), amGet (("in", a) :: ("name", b) :: l) "type"
        = amGet l "type" from by intro a b l; simp [amGet]]
  rw [amGet_piece_append _ _ _
        (fun kk hkk => by rw [descPieceOf_keys pm kk hkk]; decide)]
  rw [amGet_piece_append _ _ _
        (fun kk hkk => by rw [reqPieceOf_keys pm kk hkk]; decide)]
  simp [amGet, asString]

theorem formData_ref_degrades (pm sch : YMap)
    (hs : amGet pm "schema" = some (.ymap sch))
    (ht : strField sch "type" = "")
    (hr : refNonNil sch = true) :
    strField (formDataFromBodyParam pm) "type" = "string" := by
  rw [formData_type_eq]
  have htfi : (formDataTfi pm).1 = "string" := by
    simp only [formDataTfi, hs, ht, hr]
    simp
  rw [htfi]
  simp

/-! ## Lemmas about the mixed body+formData branch -/

theorem convertParams_no_body (params : List YVal) :
    ∀ q ∈ (convertParams params).1, paramIsBody q = false := by
  induction params with
  | nil => simp [convertParams]
  | cons p rest ih =>
      intro q hq
      cases p with
      | ymap pm =>
          by_cases h : eqFold (strField pm "in") "body"
          · simp only [convertParams, h, if_pos] at hq
            rcases List.mem_cons.mp hq with hq | hq
            · subst hq; exact formData_not_body pm
            · exact ih q hq
          · simp only [convertParams, h, if_neg, Bool.false_eq_true,
              not_false_eq_true] at hq
            rcases List.mem_cons.mp hq with hq | hq
            · subst hq; simpa [paramIsBody] using h
            · exact ih q hq
      | ynull => exact ih q (by simpa [convertParams] using hq)
      | ybool b => exact ih q (by simpa [convertParams] using hq)
      | yint n => exact ih q (by simpa [convertParams] using hq)
      | ystr s => exact ih q (by simpa [convertParams] using hq)
      | yarr l => exact ih q (by simpa [convertParams] using hq)

theorem convertParams_mem (params : List YVal) (pm : YMap)
    (hmem : YVal.ymap pm ∈ params) (hbody : paramIsBody (.ymap pm) = true) :
    YVal.ymap (formDataFromBodyParam pm) ∈ (convertParams params).1 := by
  induction params with
  | nil => simp at hmem
  | cons p rest ih =>
      rcases List.mem_cons.mp hmem with h | h
      · subst h
        have hb : eqFold (strField pm "in") "body" = true := by
          simpa [paramIsBody] using hbody
        simp [convertParams, hb]
      · have hrec := ih h
        cases p with
        | ymap qm =>
            by_cases hq : eqFold (strField qm "in") "body"
            · simp only [convertParams, hq, if_pos]
              exact List.mem_cons_of_mem _ hrec
            · simp only [convertParams, hq, if_neg, Bool.false_eq_true,
                not_false_eq_true]
              exact List.mem_cons_of_mem _ hrec
        | ynull => simpa [convertParams] using hrec
        | ybool b => simpa [convertParams] using hrec
        | yint n => simpa [convertParams] using hrec
        | ystr s => simpa [convertParams] using hrec
        | yarr l => simpa [convertParams] using hrec

theorem convertParams_modified (params : List YVal)
    (h : 1 ≤ bodyCount params) : (convertParams params).2 = true := by
  induction params with
  | nil => simp [bodyCount] at h
  | cons p rest ih =>
      by_cases hb : paramIsBody p
      · cases p with
        | ymap pm =>
            have hb' : eqFold (strField pm "in") "body" = true := by
              simpa [paramIsBody] using hb
            simp [convertParams, hb']
        | ynull => simp [paramIsBody] at hb
        | ybool b => simp [paramIsBody] at hb
        | yint n => simp [paramIsBody] at hb
        | ystr s => simp [paramIsBody] at hb
        | yarr l => simp [paramIsBody] at hb
      · have hrest : 1 ≤ bodyCount rest := by
          rw [bodyCount_cons] at h
          simpa [hb] using h
        have hrec := ih hrest
        cases p with
        | ymap pm =>
            have hb' : eqFold (strField pm "in") "body" = false := by
              simpa [paramIsBody] using hb
            simp [convertParams, hb', hrec]
        | ynull => simpa [convertParams] using hrec
        | ybool b => simpa [convertParams] using hrec
        | yint n => simpa [convertParams] using hrec
        | ystr s => simpa [convertParams] using hrec
        | yarr l => simpa [convertParams] using hrec

theorem ensureConsumes_contains (op : YMap) :
    ∃ c, amGet (ensureConsumes op) "consumes" = some (.yarr c)
      ∧ containsString c "multipart/form-data" = true := by
  unfold ensureConsumes
  cases hc : amGet op "consumes" with
  | none =>
      simp only [hc]
      refine ⟨[.ystr "multipart/form-data"], ?_, by simp [containsString]⟩
      simp [containsString, amGet_amSet]
  | some v =>
      cases v with
      | yarr c =>
          by_cases hin : containsString c "multipart/form-data" = true
          · refine ⟨c, ?_, hin⟩
            simp only [hin, if_pos]
            exact hc
          · simp only [hc, hin, if_neg, not_false_eq_true]
            refine ⟨c ++ [.ystr "multipart/form-data"], by simp [amGet_amSet], ?_⟩
            simp [containsString, List.any_append]
      | ynull =>
          simp only [hc]
          refine ⟨[.ystr "multipart/form-data"], ?_, by simp [containsString]⟩
          simp [containsString, amGet_amSet]
      | ybool b =>
          simp only [hc]
          refine ⟨[.ystr "multipart/form-data"], ?_, by simp [containsString]⟩
          simp [containsString, amGet_amSet]
      | yint n =>
          simp only [hc]
          refine ⟨[.ystr "multipart/form-data"], ?_, by simp [containsString]⟩
          simp [containsString, amGet_amSet]
      | ystr s =>
          simp only [hc]
          refine ⟨[.ystr "multipart/form-data"], ?_, by simp [containsString]⟩
          simp [containsString, amGet_amSet]
      | ymap m =>
          simp only [hc]
          refine ⟨[.ystr "multipart/form-data"], ?_, by simp [containsString]⟩
          simp [containsString, amGet_amSet]

theorem ensureConsumes_other (op : YMap) (k : String) (h : k ≠ "consumes") :
    amGet (ensureConsumes op) k = amGet op k := by
  have hks : ¬ ("consumes" : String) = k := fun he => h he.symm
  have hgen : ∀ (m : YMap) (v : YVal), amGet (amSet m "consumes" v) k = amGet m k := by
    intro m v
    rw [amGet_amSet]
    simp [hks]
  unfold ensureConsumes
  split
  all_goals dsimp only
  all_goals split
  all_goals first
    | rfl
    | apply hgen

/-- Reduction of `processOperation` in the mixed body+formData branch. -/
theorem processOperation_formData (op : YMap) (params : List YVal)
    (hp : amGet op "parameters" = some (.yarr params))
    (hbc : 1 ≤ bodyCount params)
    (hfd : hasFormData params = true) :
    processOperation op =
      (ensureConsumes (amSet op "parameters" (.yarr (convertParams params).1)),
       (convertParams params).2) := by
  have hne : params ≠ [] := bodyCount_pos_ne_nil hbc
  have hnz : ¬ bodyCount params = 0 := by omega
  simp only [processOperation, hp]
  cases params with
  | nil => exact absurd rfl hne
  | cons p rest =>
      simp only [List.isEmpty_cons, Bool.false_eq_true, if_neg, not_false_eq_true]
      rw [if_neg hnz, if_pos hfd]

/-! ## Lemmas about the multiple-body merge branch -/

theorem mergeBodyStep_body (acc : YMap × List YVal × List YVal × Bool) (pm : YMap)
    (hb : eqFold (strField pm "in") "body" = true) :
    mergeBodyStep acc (.ymap pm)
      = (amSet acc.1 (defName pm)
          (.ymap (match extractSchemaFromParam pm with
                  | some sch => sch
                  | none => [("type", YVal.ystr "string")])),
         (if reqBool pm then acc.2.1 ++ [.ystr (defName pm)] else acc.2.1),
         acc.2.2.1, true) := by
  simp [mergeBodyStep, hb, defName]

theorem mergeBodyStep_nonbody (acc : YMap × List YVal × List YVal × Bool) (pm : YMap)
    (hb : eqFold (strField pm "in") "body" = false) :
    mergeBodyStep acc (.ymap pm)
      = (acc.1, acc.2.1, acc.2.2.1 ++ [.ymap pm], acc.2.2.2) := by
  simp [mergeBodyStep, hb]

theorem bodyNamesOf_cons_body (pm : YMap) (rest : List YVal)
    (hb : eqFold (strField pm "in") "body" = true) :
    bodyNamesOf (YVal.ymap pm :: rest) = defName pm :: bodyNamesOf rest := by
  simp [bodyNamesOf, List.filterMap_cons, hb]

theorem bodyNamesOf_cons_nonbody (pm : YMap) (rest : List YVal)
    (hb : eqFold (strField pm "in") "body" = false) :
    bodyNamesOf (YVal.ymap pm :: rest) = bodyNamesOf rest := by
  simp [bodyNamesOf, List.filterMap_cons, hb]

theorem mergeBody_keys (params : List YVal) :
    ∀ (acc : YMap × List YVal × List YVal × Bool) (n : String),
      n ∈ keysOf (params.foldl mergeBodyStep acc).1
        ↔ n ∈ keysOf acc.1 ∨ n ∈ bodyNamesOf params := by
  induction params with
  | nil => intro acc n; simp [bodyNamesOf]
  | cons p rest ih =>
      intro acc n
      rw [List.foldl_cons]
      cases p with
      | ymap pm =>
          by_cases hb : eqFold (strField pm "in") "body"
          · rw [mergeBodyStep_body acc pm hb, bodyNamesOf_cons_body pm rest hb]
            rw [ih]
            have h2 := mem_keysOf_amSet acc.1 (defName pm) n
              (.ymap (match extractSchemaFromParam pm with
                      | some sch => sch
                      | none => [("type", YVal.ystr "string")]))
            simp only [h2, List.mem_cons]
            tauto
          · have hb' : eqFold (strField pm "in") "body" = false := by
              simpa using hb
            rw [mergeBodyStep_nonbody acc pm hb', bodyNamesOf_cons_nonbody pm rest hb']
            exact ih _ n
      | ynull =>
          rw [show bodyNamesOf (YVal.ynull :: rest) = bodyNamesOf rest from by
            simp [bodyNamesOf, List.filterMap_cons]]
          exact ih acc n
      | ybool b =>
          rw [show bodyNamesOf (YVal.ybool b :: rest) = bodyNamesOf rest from by
            simp [bodyNamesOf, List.filterMap_cons]]
          exact ih acc n
      | yint k =>
          rw [show bodyNamesOf (YVal.yint k :: rest) = bodyNamesOf rest from by
            simp [bodyNamesOf, List.filterMap_cons]]
          exact ih acc n
      | ystr s =>
          rw [show bodyNamesOf (YVal.ystr s :: rest) = bodyNamesOf rest from by
            simp [bodyNamesOf, List.filterMap_cons]]
          exact ih acc n
      | yarr l =>
          rw [show bodyNamesOf (YVal.yarr l :: rest) = bodyNamesOf rest from by
            simp [bodyNamesOf, List.filterMap_cons]]
          exact ih acc n

theorem mergeBody_keys_nodup (params : List YVal) :
    ∀ (acc : YMap × List YVal × List YVal × Bool),
      (keysOf acc.1).Nodup → (keysOf (params.foldl mergeBodyStep acc).1).Nodup := by
  induction params with
  | nil => intro acc h; exact h
  | cons p rest ih =>
      intro acc h
      rw [List.foldl_cons]
      cases p with
      | ymap pm =>
          by_cases hb : eqFold (strField pm "in") "body"
          · rw [mergeBodyStep_body acc pm hb]
            exact ih _ (nodup_keysOf_amSet _ _ _ h)
          · have hb' : eqFold (strField pm "in") "body" = false := by
              simpa using hb
            rw [mergeBodyStep_nonbody acc pm hb']
            exact ih _ h
      | ynull => exact ih acc h
      | ybool b => exact ih acc h
      | yint k => exact ih acc h
      | ystr s => exact ih acc h
      | yarr l => exact ih acc h

theorem reqNamesOf_cons_body (pm : YMap) (rest : List YVal)
    (hb : eqFold (strField pm "in") "body" = true) :
    reqNamesOf (YVal.ymap pm :: rest)
      = (if reqBool pm then defName pm :: reqNamesOf rest else reqNamesOf rest) := by
  by_cases hr : reqBool pm <;> simp [reqNamesOf, List.filterMap_cons, hb, hr]

theorem reqNamesOf_cons_nonbody (pm : YMap) (rest : List YVal)
    (hb : eqFold (strField pm "in") "body" = false) :
    reqNamesOf (YVal.ymap pm :: rest) = reqNamesOf rest := by
  simp [reqNamesOf, List.filterMap_cons, hb]

theorem mergeBody_required (params : List YVal) :
    ∀ (acc : YMap × List YVal × List YVal × Bool) (v : YVal),
      v ∈ (params.foldl mergeBodyStep acc).2.1
        ↔ v ∈ acc.2.1 ∨ ∃ n ∈ reqNamesOf params, v = YVal.ystr n := by
  induction params with
  | nil => intro acc v; simp [reqNamesOf]
  | cons p rest ih =>
      intro acc v
      rw [List.foldl_cons]
      cases p with
      | ymap pm =>
          by_cases hb : eqFold (strField pm "in") "body"
          · rw [mergeBodyStep_body acc pm hb, reqNamesOf_cons_body pm rest hb]
            rw [ih]
            by_cases hr : reqBool pm
            · simp only [hr, if_pos, List.mem_append, List.mem_singleton,
                List.mem_cons]
              aesop
            · simp only [hr, if_neg, Bool.false_eq_true, not_false_eq_true]
          · have hb' : eqFold (strField pm "in") "body" = false := by
              simpa using hb
            rw [mergeBodyStep_nonbody acc pm hb', reqNamesOf_cons_nonbody pm rest hb']
            exact ih _ v
      | ynull =>
          rw [show reqNamesOf (YVal.ynull :: rest) = reqNamesOf rest from by
            simp [reqNamesOf, List.filterMap_cons]]
          exact ih acc v
      | ybool b =>
          rw [show reqNamesOf (YVal.ybool b :: rest) = reqNamesOf rest from by
            simp [reqNamesOf, List.filterMap_cons]]
          exact ih acc v
      | yint k =>
          rw [show reqNamesOf (YVal.yint k :: rest) = reqNamesOf rest from by
            simp [reqNamesOf, List.filterMap_cons]]
          exact ih acc v
      | ystr s =>
          rw [show reqNamesOf (YVal.ystr s :: rest) = reqNamesOf rest from by
            simp [reqNamesOf, List.filterMap_cons]]
          exact ih acc v
      | yarr l =>
          rw [show reqNamesOf (YVal.yarr l :: rest) = reqNamesOf rest from by
            simp [reqNamesOf, List.filterMap_cons]]
          exact ih acc v

theorem mergeBody_newParams (params : List YVal) :
    ∀ (acc : YMap × List YVal × List YVal × Bool),
      (params.foldl mergeBodyStep acc).2.2.1 = acc.2.2.1 ++ nonBodyParams params := by
  induction params with
  | nil => intro acc; simp [nonBodyParams]
  | cons p rest ih =>
      intro acc
      rw [List.foldl_cons]
      cases p with
      | ymap pm =>
          by_cases hb : eqFold (strField pm "in") "body"
          · rw [mergeBodyStep_body acc pm hb, ih]
            simp [nonBodyParams, List.filter_cons, hb]
          · have hb' : eqFold (strField pm "in") "body" = false := by
              simpa using hb
            rw [mergeBodyStep_nonbody acc pm hb', ih]
            simp [nonBodyParams, List.filter_cons, hb']
      | ynull =>
          rw [ih]
          simp [mergeBodyStep, nonBodyParams, List.filter_cons]
      | ybool b =>
          rw [ih]
          simp [mergeBodyStep, nonBodyParams, List.filter_cons]
      | yint k =>
          rw [ih]
          simp [mergeBodyStep, nonBodyParams, List.filter_cons]
      | ystr s =>
          rw [ih]
          simp [mergeBodyStep, nonBodyParams, List.filter_cons]
      | yarr l =>
          rw [ih]
          simp [mergeBodyStep, nonBodyParams, List.filter_cons]

theorem mergeBody_modified (params : List YVal) :
    ∀ (acc : YMap × List YVal × List YVal × Bool),
      (params.foldl mergeBodyStep acc).2.2.2
        = (acc.2.2.2 || decide (1 ≤ bodyCount params)) := by
  induction params with
  | nil => intro acc; simp [bodyCount]
  | cons p rest ih =>
      intro acc
      rw [List.foldl_cons]
      cases p with
      | ymap pm =>
          by_cases hb : eqFold (strField pm "in") "body"
          · rw [mergeBodyStep_body acc pm hb, ih]
            have : bodyCount (YVal.ymap pm :: rest) = 1 + bodyCount rest := by
              rw [bodyCount_cons]; simp [paramIsBody, hb]
            rw [this]
            simp
          · have hb' : eqFold (strField pm "in") "body" = false := by
              simpa using hb
            rw [mergeBodyStep_nonbody acc pm hb', ih]
            have : bodyCount (YVal.ymap pm :: rest) = bodyCount rest := by
              rw [bodyCount_cons]; simp [paramIsBody, hb']
            rw [this]
      | ynull =>
          rw [ih]
          have hc : bodyCount (YVal.ynull :: rest) = bodyCount rest := by
            rw [bodyCount_cons]; simp [paramIsBody]
          rw [hc]
          simp [mergeBodyStep]
      | ybool b =>
          rw [ih]
          have hc : bodyCount (YVal.ybool b :: rest) = bodyCount rest := by
            rw [bodyCount_cons]; simp [paramIsBody]
          rw [hc]
          simp [mergeBodyStep]
      | yint k =>
          rw [ih]
          have hc : bodyCount (YVal.yint k :: rest) = bodyCount rest := by
            rw [bodyCount_cons]; simp [paramIsBody]
          rw [hc]
          simp [mergeBodyStep]
      | ystr s =>
          rw [ih]
          have hc : bodyCount (YVal.ystr s :: rest) = bodyCount rest := by
            rw [bodyCount_cons]; simp [paramIsBody]
          rw [hc]
          simp [mergeBodyStep]
      | yarr l =>
          rw [ih]
          have hc : bodyCount (YVal.yarr l :: rest) = bodyCount rest := by
            rw [bodyCount_cons]; simp [paramIsBody]
          rw [hc]
          simp [mergeBodyStep]

theorem nonBodyParams_not_body (params : List YVal) :
    ∀ q ∈ nonBodyParams params, paramIsBody q = false := by
  intro q hq
  unfold nonBodyParams at hq
  rw [List.mem_filter] at hq
  obtain ⟨_, h2⟩ := hq
  cases q with
  | ymap pm =>
      simp only [Bool.not_eq_true'] at h2
      simpa [paramIsBody] using h2
  | ynull => simp at h2
  | ybool b => simp at h2
  | yint n => simp at h2
  | ystr s => simp at h2
  | yarr l => simp at h2

theorem bodyCount_zero_of_no_body {l : List YVal}
    (h : ∀ q ∈ l, paramIsBody q = false) : bodyCount l = 0 := by
  unfold bodyCount
  rw [List.length_eq_zero]
  rw [List.filter_eq_nil]
  intro a ha
  simp [h a ha]

/-- Reduction of `processOperation` in the multiple-body merge branch. -/
theorem processOperation_merge (op : YMap) (params : List YVal)
    (hp : amGet op "parameters" = some (.yarr params))
    (hbc : 2 ≤ bodyCount params)
    (hfd : hasFormData params = false) :
    processOperation op =
      (amSet op "parameters"
        (.yarr (YVal.ymap (mergedParamOf params) :: (mergeBody params).2.2.1)),
       (mergeBody params).2.2.2) := by
  have hne : params ≠ [] := bodyCount_pos_ne_nil (by omega)
  have hnz : ¬ bodyCount params = 0 := by omega
  have hlt : 1 < bodyCount params := by omega
  simp only [processOperation, hp]
  cases params with
  | nil => exact absurd rfl hne
  | cons p rest =>
      simp only [List.isEmpty_cons, Bool.false_eq_true, if_neg, not_false_eq_true]
      rw [if_neg hnz, if_neg (by simp [hfd]), if_pos hlt]

/-! ## Claim C2: merging multiple body parameters -/

/-- What preprocessing guarantees for an operation whose parameters hold two
or more body parameters and no formData parameter. -/
def C2Post (op : YMap) (params : List YVal) : Prop :=
  (processOperation op).2 = true
  ∧ paramsArr (processOperation op).1
      = YVal.ymap (mergedParamOf params) :: (mergeBody params).2.2.1
  ∧ bodyCount (paramsArr (processOperation op).1) = 1
  ∧ strField (mergedParamOf params) "in" = "body"
  ∧ strField (mergedParamOf params) "name" = "body"
  ∧ amGet (mergedParamOf params) "schema" = some (.ymap (bodySchemaOf params))
  ∧ strField (bodySchemaOf params) "type" = "object"
  ∧ (keysOf (propsOf (bodySchemaOf params))).Nodup
  ∧ (∀ n, n ∈ keysOf (propsOf (bodySchemaOf params)) ↔ n ∈ bodyNamesOf params)
  ∧ (∀ v, v ∈ requiredOf (bodySchemaOf params)
      ↔ ∃ n ∈ reqNamesOf params, v = YVal.ystr n)

theorem mergedParamOf_in (params : List YVal) :
    strField (mergedParamOf params) "in" = "body" := by
  simp [mergedParamOf, strField, amGet, asString]

theorem mergedParamOf_name (params : List YVal) :
    strField (mergedParamOf params) "name" = "body" := by
  simp [mergedParamOf, strField, amGet, asString]

theorem mergedParamOf_schema (params : List YVal) :
    amGet (mergedParamOf params) "schema" = some (.ymap (bodySchemaOf params)) := by
  simp [mergedParamOf, amGet]

theorem bodySchemaOf_type (params : List YVal) :
    strField (bodySchemaOf params) "type" = "object" := by
  unfold bodySchemaOf
  dsimp only
  split
  · rw [strField, amGet_amSet]
    simp [amGet, asString]
  · simp [strField, amGet, asString]

theorem bodySchemaOf_props_get (params : List YVal) :
    amGet (bodySchemaOf params) "properties"
      = some (.ymap (mergeBody params).1) := by
  unfold bodySchemaOf
  dsimp only
  split
  · rw [amGet_amSet]
    simp [amGet]
  · simp [amGet]

theorem bodySchemaOf_props (params : List YVal) :
    propsOf (bodySchemaOf params) = (mergeBody params).1 := by
  unfold propsOf
  rw [bodySchemaOf_props_get]

theorem bodySchemaOf_required_get (params : List YVal) :
    amGet (bodySchemaOf params) "required"
      = (if 0 < (mergeBody params).2.1.length
         then some (.yarr (mergeBody params).2.1) else none) := by
  unfold bodySchemaOf
  dsimp only
  split
  next h => rw [amGet_amSet]; simp
  next h => simp [amGet]

theorem bodySchemaOf_required (params : List YVal) :
    ∀ v, v ∈ requiredOf (bodySchemaOf params)
      ↔ ∃ n ∈ reqNamesOf params, v = YVal.ystr n := by
  intro v
  have hmr := mergeBody_required params ([], [], [], false) v
  unfold requiredOf
  rw [bodySchemaOf_required_get]
  by_cases hlen : 0 < (mergeBody params).2.1.length
  · rw [if_pos hlen]
    dsimp only
    rw [show (mergeBody params).2.1 = (List.foldl mergeBodyStep ([], [], [], false) params).2.1 from rfl] at *
    rw [hmr]
    simp
  · have hnil : (mergeBody params).2.1 = [] := by
      rw [← List.length_eq_zero]
      omega
    rw [if_neg hlen]
    dsimp only
    constructor
    · intro hv
      simp at hv
    · rintro ⟨n, hn, rfl⟩
      have hmem := hmr.mpr (Or.inr ⟨n, hn, rfl⟩)
      rw [show (List.foldl mergeBodyStep ([], [], [], false) params).2.1
          = (mergeBody params).2.1 from rfl, hnil] at hmem
      simp at hmem

/-- C2: for every Swagger v2 operation whose parameter list contains two or
more `in: body` parameters and no formData parameter, preprocessing replaces
them with exactly one `in: body` parameter named "body" whose schema is an
object carrying one property per original body parameter (named by the
parameter's `name`, defaulting to "field"), and whose `required` list is
exactly the set of body parameters individually marked required. -/
theorem claim_C2 (op : YMap) (params : List YVal)
    (hp : amGet op "parameters" = some (.yarr params))
    (hbc : 2 ≤ bodyCount params)
    (hfd : hasFormData params = false) :
    C2Post op params := by
  have hred := processOperation_merge op params hp hbc hfd
  have hps : paramsArr (processOperation op).1
      = YVal.ymap (mergedParamOf params) :: (mergeBody params).2.2.1 := by
    rw [hred]
    unfold paramsArr
    rw [amGet_amSet]
    simp
  refine ⟨?_, hps, ?_, mergedParamOf_in params, mergedParamOf_name params,
    mergedParamOf_schema params, bodySchemaOf_type params, ?_, ?_,
    bodySchemaOf_required params⟩
  · rw [hred]
    have hm := mergeBody_modified params ([], [], [], false)
    rw [show (mergeBody params).2.2.2
        = (List.foldl mergeBodyStep ([], [], [], false) params).2.2.2 from rfl, hm]
    simp
    omega
  · rw [hps, bodyCount_cons]
    have hhd : paramIsBody (.ymap (mergedParamOf params)) = true := by
      simp [paramIsBody, mergedParamOf_in params]
      decide
    rw [hhd]
    have hnp := mergeBody_newParams params ([], [], [], false)
    have htail : (mergeBody params).2.2.1 = nonBodyParams params := by
      rw [show (mergeBody params).2.2.1
          = (List.foldl mergeBodyStep ([], [], [], false) params).2.2.1 from rfl, hnp]
      simp
    rw [htail]
    rw [bodyCount_zero_of_no_body (nonBodyParams_not_body params)]
    simp
  · rw [bodySchemaOf_props]
    exact mergeBody_keys_nodup params ([], [], [], false) (by simp [keysOf])
  · intro n
    rw [bodySchemaOf_props]
    have hk := mergeBody_keys params ([], [], [], false) n
    rw [show (mergeBody params).1
        = (List.foldl mergeBodyStep ([], [], [], false) params).1 from rfl, hk]
    simp [keysOf]

/-! ## Claim C3: converting body parameters when formData is present -/

/-- What preprocessing guarantees for an operation mixing body and formData
parameters. -/
def C3Post (op : YMap) (params : List YVal) : Prop :=
  (processOperation op).2 = true
  ∧ paramsArr (processOperation op).1 = (convertParams params).1
  ∧ (∀ q ∈ paramsArr (processOperation op).1, paramIsBody q = false)
  ∧ (∀ pm : YMap, YVal.ymap pm ∈ params → paramIsBody (.ymap pm) = true →
       YVal.ymap (formDataFromBodyParam pm) ∈ paramsArr (processOperation op).1
       ∧ strField (formDataFromBodyParam pm) "in" = "formData")
  ∧ (∃ c, amGet (processOperation op).1 "consumes" = some (.yarr c)
       ∧ containsString c "multipart/form-data" = true)
  ∧ (∀ pm sch : YMap, amGet pm "schema" = some (.ymap sch) →
       strField sch "type" = "" → refNonNil sch = true →
       strField (formDataFromBodyParam pm) "type" = "string")

/-- C3: for every Swagger v2 operation mixing at least one `in: body` and
at least one `in: formData` parameter, preprocessing converts every body
parameter into a formData parameter (object refs degrade to type "string"),
no body parameter remains, and `consumes` afterwards contains
"multipart/form-data". -/
theorem claim_C3 (op : YMap) (params : List YVal)
    (hp : amGet op "parameters" = some (.yarr params))
    (hbc : 1 ≤ bodyCount params)
    (hfd : hasFormData params = true) :
    C3Post op params := by
  have hred := processOperation_formData op params hp hbc hfd
  have hpar : ("parameters" : String) ≠ "consumes" := by decide
  have hps : paramsArr (processOperation op).1 = (convertParams params).1 := by
    rw [hred]
    unfold paramsArr
    rw [ensureConsumes_other _ _ hpar, amGet_amSet]
    simp
  refine ⟨?_, hps, ?_, ?_, ?_, ?_⟩
  · rw [hred]
    exact convertParams_modified params hbc
  · rw [hps]
    exact convertParams_no_body params
  · intro pm hmem hbody
    rw [hps]
    exact ⟨convertParams_mem params pm hmem hbody, formData_in_eq pm⟩
  · rw [hred]
    exact ensureConsumes_contains _
  · intro pm sch hs ht hr
    exact formData_ref_degrades pm sch hs ht hr

/-! ## Witness inputs for C2 and C3 -/

/-- Concrete operation with two body parameters and no formData. -/
def c2params : List YVal :=
  [.ymap [("in", .ystr "body"), ("name", .ystr "a"), ("required", .ybool true),
          ("schema", .ymap [("type", .ystr "integer")])],
   .ymap [("in", .ystr "body")],
   .ymap [("in", .ystr "query"), ("name", .ystr "q")]]

def c2op : YMap := [("parameters", .yarr c2params)]

theorem claim_C2_witness :
    (amGet c2op "parameters" = some (.yarr c2params)
      ∧ 2 ≤ bodyCount c2params ∧ hasFormData c2params = false)
    ∧ C2Post c2op c2params :=
  ⟨⟨rfl, by decide, by decide⟩, claim_C2 c2op c2params rfl (by decide) (by decide)⟩

/-- Concrete operation mixing a body parameter (an object ref) and a
formData file parameter. -/
def c3params : List YVal :=
  [.ymap [("in", .ystr "body"), ("name", .ystr "payload"),
          ("schema", .ymap [("$ref", .ystr "#/definitions/Pet")])],
   .ymap [("in", .ystr "formData"), ("name", .ystr "upload"),
          ("type", .ystr "file")]]

def c3op : YMap := [("parameters", .yarr c3params)]

theorem claim_C3_witness :
    (amGet c3op "parameters" = some (.yarr c3params)
      ∧ 1 ≤ bodyCount c3params ∧ hasFormData c3params = true)
    ∧ C3Post c3op c3params :=
  ⟨⟨rfl, by decide, by decide⟩, claim_C3 c3op c3params rfl (by decide) (by decide)⟩

/-! ## Claim C9: no rewrite target means byte-identical pass-through -/

/-- Stated from the spec: an operation is a rewrite target when it has
multiple body parameters, or mixes body and formData parameters. -/
def opRewriteTarget (op : YMap) : Bool :=
  match amGet op "parameters" with
  | some (.yarr params) =>
      !params.isEmpty &&
      (decide (2 ≤ bodyCount params)
        || (decide (1 ≤ bodyCount params) && hasFormData params))
  | _ => false

/-- A path item contains a rewrite target. -/
def piRewriteTarget (pi : YMap) : Bool :=
  pi.any fun e =>
    preMethods.contains (lowerStr e.1) &&
    (match e.2 with
     | .ymap op => opRewriteTarget op
     | _ => false)

/-- A document contains a rewrite target under `paths`. -/
def docRewriteTarget (doc : YMap) : Bool :=
  match amGet doc "paths" with
  | some (.ymap paths) =>
      paths.any fun e =>
        match e.2 with
        | .ymap pi => piRewriteTarget pi
        | _ => false
  | _ => false

theorem processOperation_flag (op : YMap) :
    (processOperation op).2 = opRewriteTarget op := by
  unfold processOperation opRewriteTarget
  cases hv : amGet op "parameters" with
  | none => rfl
  | some v =>
      cases v with
      | yarr params =>
          cases params with
          | nil => simp
          | cons p rest =>
              simp only [List.isEmpty_cons, Bool.not_false, Bool.true_and]
              by_cases hz : bodyCount (p :: rest) = 0
              · rw [if_pos hz, hz]
                simp
              · rw [if_neg hz]
                by_cases hfd : hasFormData (p :: rest)
                · rw [if_pos hfd]
                  have h1 : 1 ≤ bodyCount (p :: rest) := by omega
                  rw [convertParams_modified _ h1]
                  simp [hfd, h1]
                · rw [if_neg hfd]
                  by_cases hlt : 1 < bodyCount (p :: rest)
                  · rw [if_pos hlt]
                    have hm := mergeBody_modified (p :: rest) ([], [], [], false)
                    rw [show (mergeBody (p :: rest)).2.2.2
                        = (List.foldl mergeBodyStep ([], [], [], false) (p :: rest)).2.2.2
                        from rfl, hm]
                    have h1 : 1 ≤ bodyCount (p :: rest) := by omega
                    have h2 : 2 ≤ bodyCount (p :: rest) := by omega
                    simp [h1, h2]
                  · rw [if_neg hlt]
                    have h2 : ¬ 2 ≤ bodyCount (p :: rest) := by omega
                    simp [h2, hfd]
      | ynull => rfl
      | ybool b => rfl
      | yint n => rfl
      | ystr s => rfl
      | ymap m => rfl

theorem processPathItem_foldl (entries : List (String × YVal)) :
    ∀ acc : YMap × Bool,
      (entries.foldl
        (fun acc entry =>
          if preMethods.contains (lowerStr entry.1) then
            match entry.2 with
            | .ymap op =>
                let r := processOperation op
                (acc.1 ++ [(entry.1, YVal.ymap r.1)], acc.2 || r.2)
            | _ => (acc.1 ++ [entry], acc.2)
          else (acc.1 ++ [entry], acc.2)) acc).2
      = (acc.2 || entries.any fun e =>
          preMethods.contains (lowerStr e.1) &&
          (match e.2 with
           | .ymap op => opRewriteTarget op
           | _ => false)) := by
  induction entries with
  | nil => intro acc; simp
  | cons e rest ih =>
      intro acc
      rw [List.foldl_cons, List.any_cons]
      by_cases hm : lowerStr e.1 ∈ preMethods
      · cases hv : e.2 with
        | ymap op =>
            rw [ih]
            simp [hm, hv, processOperation_flag, Bool.or_assoc]
        | ynull => rw [ih]; simp [hm, hv]
        | ybool b => rw [ih]; simp [hm, hv]
        | yint n => rw [ih]; simp [hm, hv]
        | ystr s => rw [ih]; simp [hm, hv]
        | yarr l => rw [ih]; simp [hm, hv]
      · rw [ih]
        simp [hm]

theorem processPathItem_flag (pi : YMap) :
    (processPathItem pi).2 = piRewriteTarget pi := by
  unfold processPathItem piRewriteTarget
  rw [processPathItem_foldl pi ([], false)]
  simp

theorem processDoc_flag (doc : YMap) :
    (processDoc doc).2 = docRewriteTarget doc := by
  unfold processDoc docRewriteTarget
  cases hv : amGet doc "paths" with
  | none => rfl
  | some v =>
      cases v with
      | ymap paths =>
          dsimp only
          by_cases hemp : paths.isEmpty
          · rw [if_pos hemp]
            cases paths with
            | nil => simp
            | cons q qs => simp at hemp
          · rw [if_neg hemp]
            dsimp only
            have hfold : ∀ acc : YMap × Bool,
                (paths.foldl
                  (fun acc entry =>
                    match entry.2 with
                    | .ymap pi =>
                        let s := processPathItem pi
                        (acc.1 ++ [(entry.1, YVal.ymap s.1)], acc.2 || s.2)
                    | _ => (acc.1 ++ [entry], acc.2)) acc).2
                = (acc.2 || paths.any fun e =>
                    match e.2 with
                    | .ymap pi => piRewriteTarget pi
                    | _ => false) := by
              clear hemp hv
              induction paths with
              | nil => intro acc; simp
              | cons e rest ih =>
                  intro acc
                  rw [List.foldl_cons, List.any_cons]
                  cases hv2 : e.2 with
                  | ymap pi =>
                      rw [ih]
                      simp [hv2, processPathItem_flag, Bool.or_assoc]
                  | ynull => rw [ih]; simp [hv2]
                  | ybool b => rw [ih]; simp [hv2]
                  | yint n => rw [ih]; simp [hv2]
                  | ystr s => rw [ih]; simp [hv2]
                  | yarr l => rw [ih]; simp [hv2]
            rw [hfold ([], false)]
            simp
      | ynull => rfl
      | ybool b => rfl
      | yint n => rfl
      | ystr s => rfl
      | yarr l => rfl

/-- C9: when a parsed document contains no rewrite target (no operation with
multiple body parameters or mixed body/formData parameters), preprocessing
returns the input bytes byte-identical, with `modified = false` and no
error. -/
theorem claim_C9 (data : RawBytes) (doc : YMap) (marshal : YMap → RawBytes)
    (hno : docRewriteTarget doc = false) :
    preprocessV2ForCompatibility data (some doc) marshal
      = ⟨data, false, false⟩ := by
  unfold preprocessV2ForCompatibility
  have hflag : (processDoc doc).2 = false := by rw [processDoc_flag, hno]
  dsimp only
  rw [hflag]
  simp

def c9doc : YMap :=
  [("swagger", .ystr "2.0"),
   ("paths", .ymap [("/pets", .ymap [("get", .ymap [("responses", .ymap [])])])])]

def c9data : RawBytes := [115, 119, 97, 103]

def c9marshal : YMap → RawBytes := fun _ => []

theorem claim_C9_witness :
    docRewriteTarget c9doc = false
    ∧ preprocessV2ForCompatibility c9data (some c9doc) c9marshal
        = ⟨c9data, false, false⟩ :=
  ⟨by decide, claim_C9 c9data c9doc c9marshal (by decide)⟩

/-! ## Data model: openapi3 document fragment and the Internal Model

The openapi3 structures carry exactly the fields `BuildServiceModel` reads
for path/operation walking, parameter merging, tag filtering and response
ordering. Schema payloads (`openapi3.SchemaRef` subtrees, converted by
`toSchemaOrRef`) are never inspected by the claims settled here and are
carried as opaque `Option YVal` payloads copied through unchanged; the
components/schemas table, request bodies and response media conversion of
`BuildServiceModel` are likewise claims-orthogonal and omitted. Pointers
that the Go code nil-checks and skips are `Option`s. -/

/-- Go `HttpMethod` string constants. -/
inductive HttpMethod : Type where
  | get | post | put | delete | patch | head | options | trace
deriving DecidableEq, Repr

def methodStr : HttpMethod → String
  | .get => "get"
  | .post => "post"
  | .put => "put"
  | .delete => "delete"
  | .patch => "patch"
  | .head => "head"
  | .options => "options"
  | .trace => "trace"

/-- Position of a method in the fixed processing order of
`BuildServiceModel` (GET, POST, PUT, DELETE, PATCH, HEAD, OPTIONS, TRACE). -/
def methodIdx : HttpMethod → Nat
  | .get => 0
  | .post => 1
  | .put => 2
  | .delete => 3
  | .patch => 4
  | .head => 5
  | .options => 6
  | .trace => 7

/-- An `openapi3.Parameter` (a `ParameterRef` whose `Value` is nil, or a nil
ref, is `none` at the use sites). -/
structure OAParameter : Type where
  Name : String
  In : String
  Required : Bool
  Schema : Option YVal

/-- An `openapi3.Response` behind a non-nil `ResponseRef.Value`. -/
structure OAResponse : Type where
  Description : Option String

/-- An `openapi3.Operation`. -/
structure OAOperation : Type where
  Tags : List String
  Summary : String
  Description : String
  Parameters : List (Option OAParameter)
  Responses : List (String × Option OAResponse)

/-- An `openapi3.PathItem`. -/
structure OAPathItem : Type where
  Parameters : List (Option OAParameter)
  Get : Option OAOperation
  Post : Option OAOperation
  Put : Option OAOperation
  Delete : Option OAOperation
  Patch : Option OAOperation
  Head : Option OAOperation
  Options : Option OAOperation
  Trace : Option OAOperation

structure OAServer : Type where
  URL : String
  Description : String

structure OAInfo : Type where
  Title : String
  Version : String
  Description : String

/-- The fragment of `openapi3.T` read by `BuildServiceModel`. -/
structure OADoc : Type where
  Info : OAInfo
  Servers : List (Option OAServer)
  Paths : List (String × Option OAPathItem)

/-- Internal-model parameter (`ParameterModel`). -/
structure ParameterModel : Type where
  Name : String
  In : String
  Required : Bool
  Schema : Option YVal

/-- Internal-model response (`ResponseModel`; `Content` is claims-orthogonal
media conversion and omitted). -/
structure ResponseModel : Type where
  Status : String
  Description : String

/-- Internal-model endpoint (`EndpointModel`; `RequestBody` omitted as
claims-orthogonal). -/
structure EndpointModel : Type where
  ID : String
  Method : HttpMethod
  Path : String
  Summary : String
  Description : String
  Tags : List String
  Parameters : List ParameterModel
  Responses : List ResponseModel

structure Server : Type where
  URL : String
  Description : String

/-- The terminal `ServiceModel` (the name-keyed `Schemas` table is
claims-orthogonal and omitted). -/
structure ServiceModel : Type where
  Title : String
  Version : String
  Description : String
  Servers : List Server
  Tags : List String
  Endpoints : List EndpointModel

/-- The resolved build configuration (`buildConfig`); the Go string sets are
lists used for membership, compiled path regexps are opaque matchers. -/
structure BuildConfig : Type where
  includeTags : List String
  excludeTags : List String
  methods : List HttpMethod
  pathRes : List (String → Bool)

/-! ## BuildServiceModel -/

/-- Models `safeStr` (TrimSpace). -/
def safeStr (s : String) : String := trimSpace s

/-- Models `allowByTags`. -/
def allowByTags (tags : List String) (cfg : BuildConfig) : Bool :=
  if !cfg.includeTags.isEmpty
      && !(tags.any fun t => cfg.includeTags.contains t) then false
  else if !cfg.excludeTags.isEmpty
      && (tags.any fun t => cfg.excludeTags.contains t) then false
  else true

/-- Models `paramKey`. -/
def paramKey (inLoc name : String) : String := inLoc ++ ":" ++ name

/-- Models `toParameterModel` (nil ref / nil value collapse to `none`; the
schema payload is copied through). -/
def toParameterModel (pref : Option OAParameter) : Option ParameterModel :=
  match pref with
  | none => none
  | some p => some ⟨safeStr p.Name, safeStr p.In, p.Required, p.Schema⟩

/-- The `(in, name)`-keyed parameter map built by folding `toParameterModel`
over a parameter list (path level, then overlaid by operation level). -/
def buildParamMap (ps : List (Option OAParameter))
    (base : List (String × ParameterModel)) : List (String × ParameterModel) :=
  ps.foldl
    (fun m pref =>
      match toParameterModel pref with
      | none => m
      | some pm => amSet m (paramKey pm.In pm.Name) pm)
    base

/-- Ordering used by the `sort.Slice` on merged parameters: by `In`, then by
`Name` (byte order). -/
def pLE (a b : ParameterModel) : Prop :=
  a.In.data < b.In.data ∨ (a.In = b.In ∧ a.Name.data ≤ b.Name.data)

instance : DecidableRel pLE := fun a b =>
  inferInstanceAs (Decidable (a.In.data < b.In.data ∨ (a.In = b.In ∧ a.Name.data ≤ b.Name.data)))

theorem string_eq_of_data_eq {a b : String} (h : a.data = b.data) : a = b := by
  cases a; cases b; exact congrArg String.mk h

instance : IsTotal ParameterModel pLE where
  total a b := by
    unfold pLE
    rcases lt_trichotomy a.In.data b.In.data with h | h | h
    · exact Or.inl (Or.inl h)
    · have he : a.In = b.In := string_eq_of_data_eq h
      rcases le_total a.Name.data b.Name.data with h2 | h2
      · exact Or.inl (Or.inr ⟨he, h2⟩)
      · exact Or.inr (Or.inr ⟨he.symm, h2⟩)
    · exact Or.inr (Or.inl h)

instance : IsTrans ParameterModel pLE where
  trans a b c hab hbc := by
    unfold pLE at *
    rcases hab with h1 | ⟨h1, h1'⟩
    · rcases hbc with h2 | ⟨h2, h2'⟩
      · exact Or.inl (lt_trans h1 h2)
      · exact Or.inl (h2 ▸ h1)
    · rcases hbc with h2 | ⟨h2, h2'⟩
      · exact Or.inl (h1 ▸ h2)
      · exact Or.inr ⟨h1.trans h2, le_trans h1' h2'⟩

/-- The merged, deterministically sorted parameter list for one operation:
path-level parameters overlaid by operation-level ones on `(in, name)`,
materialized and sorted. -/
def mergedParamsFor (itemParams opParams : List (Option OAParameter)) :
    List ParameterModel :=
  let base := buildParamMap itemParams []
  let merged := buildParamMap opParams base
  List.insertionSort pLE (merged.map Prod.snd)

/-- The response model for one status key; nil refs/values are skipped and a
nil description becomes the empty string. -/
def respOf (rs : List (String × Option OAResponse)) (code : String) :
    Option ResponseModel :=
  match amGet rs code with
  | some (some r) => some ⟨code, r.Description.getD ""⟩
  | _ => none

/-- Models the response assembly: status keys sorted with `sort.Strings`,
nil refs/values skipped. -/
def toResponseModels (rs : List (String × Option OAResponse)) :
    List ResponseModel :=
  (sortStrings (rs.map Prod.fst)).filterMap (respOf rs)

/-- Trimmed non-empty operation tags. -/
def opTags (o : OAOperation) : List String :=
  o.Tags.filterMap fun t =>
    let t' := safeStr t
    if t' = "" then none else some t'

/-- The operations of a path item in the fixed processing order. -/
def pathOps (item : OAPathItem) : List (HttpMethod × Option OAOperation) :=
  [(.get, item.Get), (.post, item.Post), (.put, item.Put),
   (.delete, item.Delete), (.patch, item.Patch), (.head, item.Head),
   (.options, item.Options), (.trace, item.Trace)]

/-- Endpoint construction for one `(method, operation)` pair of a path:
absent operations are skipped, then the method, path-pattern and tag filters
apply, then the endpoint is materialized. -/
def endpointOfPair (cfg : BuildConfig) (p : String) (item : OAPathItem)
    (pair : HttpMethod × Option OAOperation) : Option EndpointModel :=
  match pair.2 with
  | none => none
  | some o =>
      if !cfg.methods.isEmpty && !cfg.methods.contains pair.1 then none
      else if !cfg.pathRes.isEmpty && !cfg.pathRes.any (fun re => re p) then none
      else
        let params := mergedParamsFor item.Parameters o.Parameters
        let responses := toResponseModels o.Responses
        let tags := opTags o
        if !allowByTags tags cfg then none
        else some {
          ID := methodStr pair.1 ++ " " ++ p,
          Method := pair.1,
          Path := p,
          Summary := safeStr o.Summary,
          Description := safeStr o.Description,
          Tags := tags,
          Parameters := params,
          Responses := responses }

/-- Endpoint construction for one path: each present operation is filtered
by method, path pattern and tags, then materialized. -/
def buildEndpointsForPath (cfg : BuildConfig) (p : String) (item : OAPathItem) :
    List EndpointModel :=
  (pathOps item).filterMap (endpointOfPair cfg p item)

/-- Models `collectSortedTags`: the sorted set of trimmed non-empty tags on
the retained endpoints (a Go set map whose keys are sorted). -/
def collectSortedTags (endpoints : List EndpointModel) : List String :=
  let all := endpoints.flatMap fun ep =>
    ep.Tags.filterMap fun t =>
      let t' := trimSpace t
      if t' = "" then none else some t'
  sortStrings all.dedup

/-- The endpoints contributed by one sorted path key: nil path items are
skipped. -/
def endpointsForKey (doc : OADoc) (cfg : BuildConfig) (p : String) :
    List EndpointModel :=
  match amGet doc.Paths p with
  | some (some item) => buildEndpointsForPath cfg p item
  | _ => []

/-- The endpoint list of the model: path keys sorted, nil path items
skipped. -/
def buildEndpoints (doc : OADoc) (cfg : BuildConfig) : List EndpointModel :=
  (sortStrings (doc.Paths.map Prod.fst)).flatMap (endpointsForKey doc cfg)

/-- The successfully built model (the body of `BuildServiceModel` after the
nil-document check). -/
def buildModel (doc : OADoc) (cfg : BuildConfig) : ServiceModel :=
  let endpoints := buildEndpoints doc cfg
  { Title := safeStr doc.Info.Title,
    Version := safeStr doc.Info.Version,
    Description := safeStr doc.Info.Description,
    Servers := doc.Servers.filterMap fun s? =>
      match s? with
      | none => none
      | some s => some ⟨safeStr s.URL, safeStr s.Description⟩,
    Tags := collectSortedTags endpoints,
    Endpoints := endpoints }

/-- Models `BuildServiceModel`: a nil document is a fatal error, otherwise
the model is built in a single deterministic pass. -/
def BuildServiceModel (doc : Option OADoc) (cfg : BuildConfig) :
    Except String ServiceModel :=
  match doc with
  | none => .error "nil document"
  | some doc => .ok (buildModel doc cfg)

/-! ## Claim C4: parameter merging -/

/-- The last parameter of a list converting to a model with the given
`(in, name)` key (later entries overwrite earlier ones in the Go map). -/
def lastParamWith : List (Option OAParameter) → String → Option ParameterModel
  | [], _ => none
  | pref :: rest, k =>
      match lastParamWith rest k with
      | some v => some v
      | none =>
          match toParameterModel pref with
          | some pm => if paramKey pm.In pm.Name = k then some pm else none
          | none => none

/-- The overlay lookup described by the spec: operation-level parameters win
on a key collision, path-level parameters fill the rest. -/
def overlayLookup (itemParams opParams : List (Option OAParameter))
    (k : String) : Option ParameterModel :=
  match lastParamWith opParams k with
  | some v => some v
  | none => lastParamWith itemParams k

theorem lastParamWith_cons (pref : Option OAParameter)
    (rest : List (Option OAParameter)) (k : String) :
    lastParamWith (pref :: rest) k
      = match lastParamWith rest k with
        | some v => some v
        | none =>
            match toParameterModel pref with
            | some pm => if paramKey pm.In pm.Name = k then some pm else none
            | none => none := rfl

theorem amGet_buildParamMap (ps : List (Option OAParameter)) :
    ∀ (base : List (String × ParameterModel)) (k : String),
      amGet (buildParamMap ps base) k
        = match lastParamWith ps k with
          | some v => some v
          | none => amGet base k := by
  induction ps with
  | nil => intro base k; simp [buildParamMap, lastParamWith]
  | cons pref rest ih =>
      intro base k
      unfold buildParamMap at ih ⊢
      rw [List.foldl_cons, lastParamWith_cons]
      cases hc : toParameterModel pref with
      | none =>
          simp only [hc]
          rw [ih base k]
          cases hl : lastParamWith rest k with
          | some v => simp
          | none => simp
      | some pm =>
          simp only [hc]
          rw [ih _ k]
          cases hl : lastParamWith rest k with
          | some v => simp
          | none =>
              rw [amGet_amSet]
              by_cases hk : paramKey pm.In pm.Name = k
              · simp [hk]
              · simp [hk]

/-- Keys of the built parameter map stay nodup. -/
theorem buildParamMap_nodup (ps : List (Option OAParameter)) :
    ∀ base : List (String × ParameterModel),
      (keysOf base).Nodup → (keysOf (buildParamMap ps base)).Nodup := by
  induction ps with
  | nil => intro base h; exact h
  | cons pref rest ih =>
      intro base h
      unfold buildParamMap at ih ⊢
      rw [List.foldl_cons]
      cases hc : toParameterModel pref with
      | none => exact ih base h
      | some pm => exact ih _ (nodup_keysOf_amSet _ _ _ h)

/-- Every binding of the built map is keyed by its value's own key. -/
def CoherentKeys (m : List (String × ParameterModel)) : Prop :=
  ∀ q ∈ m, q.1 = paramKey q.2.In q.2.Name

theorem coherent_amSet {m : List (String × ParameterModel)}
    (h : CoherentKeys m) (pm : ParameterModel) :
    CoherentKeys (amSet m (paramKey pm.In pm.Name) pm) := by
  induction m with
  | nil =>
      intro q hq
      simp [amSet] at hq
      subst hq
      rfl
  | cons p rest ih =>
      intro q hq
      have hrest : CoherentKeys rest := fun r hr => h r (List.mem_cons_of_mem _ hr)
      have hhd := h p (List.mem_cons_self _ _)
      unfold amSet at hq
      by_cases hk : p.1 = paramKey pm.In pm.Name
      · rw [if_pos hk] at hq
        rcases List.mem_cons.mp hq with hq | hq
        · subst hq; rfl
        · exact h q (List.mem_cons_of_mem _ hq)
      · rw [if_neg hk] at hq
        rcases List.mem_cons.mp hq with hq | hq
        · subst hq; exact hhd
        · exact ih hrest q hq

theorem coherent_buildParamMap (ps : List (Option OAParameter)) :
    ∀ base : List (String × ParameterModel),
      CoherentKeys base → CoherentKeys (buildParamMap ps base) := by
  induction ps with
  | nil => intro base h; exact h
  | cons pref rest ih =>
      intro base h
      unfold buildParamMap at ih ⊢
      rw [List.foldl_cons]
      cases hc : toParameterModel pref with
      | none => exact ih base h
      | some pm => exact ih _ (coherent_amSet h pm)

/-- Membership among the values of a nodup, coherent map is lookup at the
value's own key. -/
theorem mem_values_iff_amGet {m : List (String × ParameterModel)}
    (hnd : (keysOf m).Nodup) (hco : CoherentKeys m) (v : ParameterModel) :
    v ∈ m.map Prod.snd ↔ amGet m (paramKey v.In v.Name) = some v := by
  constructor
  · intro hv
    rcases List.mem_map.mp hv with ⟨⟨k, v'⟩, hmem, hsnd⟩
    simp at hsnd
    subst hsnd
    have hk := hco _ hmem
    simp at hk
    rw [← hk]
    exact mem_amGet hnd hmem
  · intro hv
    exact List.mem_map.mpr ⟨(paramKey v.In v.Name, v), amGet_mem hv, rfl⟩

/-- C4: the merged parameter list is the path-level parameters overlaid by
the operation-level parameters keyed by `(in, name)` with the operation
level winning, and it is sorted by `(in, name)`. -/
theorem claim_C4 (itemParams opParams : List (Option OAParameter)) :
    (mergedParamsFor itemParams opParams).Pairwise pLE
    ∧ (∀ pm : ParameterModel,
        pm ∈ mergedParamsFor itemParams opParams
          ↔ overlayLookup itemParams opParams (paramKey pm.In pm.Name) = some pm) := by
  constructor
  · exact List.sorted_insertionSort pLE _
  · intro pm
    unfold mergedParamsFor
    rw [List.mem_insertionSort]
    have hnd : (keysOf (buildParamMap opParams (buildParamMap itemParams []))).Nodup :=
      buildParamMap_nodup opParams _ (buildParamMap_nodup itemParams [] (by simp [keysOf]))
    have hco : CoherentKeys (buildParamMap opParams (buildParamMap itemParams [])) :=
      coherent_buildParamMap opParams _ (coherent_buildParamMap itemParams []
        (by intro q hq; simp at hq))
    rw [mem_values_iff_amGet hnd hco pm]
    rw [amGet_buildParamMap opParams _ _]
    unfold overlayLookup
    cases lastParamWith opParams (paramKey pm.In pm.Name) with
    | some v => simp
    | none =>
        simp only []
        rw [amGet_buildParamMap itemParams _ _]
        cases lastParamWith itemParams (paramKey pm.In pm.Name) with
        | some v => simp
        | none => simp [amGet]

/-! ## Inversion and ordering lemmas for built endpoints -/

theorem endpointOfPair_inv {cfg : BuildConfig} {p : String} {item : OAPathItem}
    {pair : HttpMethod × Option OAOperation} {ep : EndpointModel}
    (h : endpointOfPair cfg p item pair = some ep) :
    ∃ o, pair.2 = some o
      ∧ ep.Method = pair.1
      ∧ ep.Path = p
      ∧ allowByTags ep.Tags cfg = true
      ∧ ep.Tags = opTags o
      ∧ ep.Responses = toResponseModels o.Responses
      ∧ ep.Parameters = mergedParamsFor item.Parameters o.Parameters := by
  unfold endpointOfPair at h
  cases hp2 : pair.2 with
  | none => rw [hp2] at h; simp at h
  | some o =>
      rw [hp2] at h
      dsimp only at h
      split at h
      · simp at h
      · split at h
        · simp at h
        · split at h
          · simp at h
          · next hallow =>
              have hep := Option.some.inj h
              refine ⟨o, rfl, ?_, ?_, ?_, ?_, ?_, ?_⟩
              · rw [← hep]
              · rw [← hep]
              · rw [← hep]
                simpa using hallow
              · rw [← hep]
              · rw [← hep]
              · rw [← hep]

theorem pathOps_pairwise (item : OAPathItem) :
    (pathOps item).Pairwise
      (fun pr1 pr2 => methodIdx pr1.1 < methodIdx pr2.1) := by
  unfold pathOps
  refine List.Pairwise.cons ?_ (List.Pairwise.cons ?_ (List.Pairwise.cons ?_
    (List.Pairwise.cons ?_ (List.Pairwise.cons ?_ (List.Pairwise.cons ?_
    (List.Pairwise.cons ?_ (List.Pairwise.cons ?_ List.Pairwise.nil))))))) <;>
    intro x hx <;> fin_cases hx <;> simp [methodIdx]

theorem buildEndpointsForPath_pairwise (cfg : BuildConfig) (p : String)
    (item : OAPathItem) :
    (buildEndpointsForPath cfg p item).Pairwise
      (fun a b => methodIdx a.Method < methodIdx b.Method) := by
  unfold buildEndpointsForPath
  rw [List.pairwise_filterMap]
  refine (pathOps_pairwise item).imp ?_
  intro pr1 pr2 h12 b hb b' hb'
  obtain ⟨o1, _, hm1, _⟩ := endpointOfPair_inv hb
  obtain ⟨o2, _, hm2, _⟩ := endpointOfPair_inv hb'
  rw [hm1, hm2]
  exact h12

theorem mem_buildEndpointsForPath {cfg : BuildConfig} {p : String}
    {item : OAPathItem} {ep : EndpointModel}
    (h : ep ∈ buildEndpointsForPath cfg p item) :
    ep.Path = p ∧ allowByTags ep.Tags cfg = true
    ∧ ∃ pair ∈ pathOps item, ∃ o, pair.2 = some o
        ∧ ep.Method = pair.1
        ∧ ep.Tags = opTags o
        ∧ ep.Responses = toResponseModels o.Responses := by
  unfold buildEndpointsForPath at h
  rcases List.mem_filterMap.mp h with ⟨pair, hmem, hg⟩
  obtain ⟨o, ho, hm, hp, hallow, htags, hresp, _⟩ := endpointOfPair_inv hg
  exact ⟨hp, hallow, pair, hmem, o, ho, hm, htags, hresp⟩

theorem mem_buildEndpoints {doc : OADoc} {cfg : BuildConfig} {ep : EndpointModel}
    (h : ep ∈ buildEndpoints doc cfg) :
    ∃ p item, amGet doc.Paths p = some (some item)
      ∧ ep ∈ buildEndpointsForPath cfg p item := by
  unfold buildEndpoints at h
  rcases List.mem_flatMap.mp h with ⟨p, hp, hep⟩
  unfold endpointsForKey at hep
  cases hv : amGet doc.Paths p with
  | none => rw [hv] at hep; simp at hep
  | some item? =>
      cases item? with
      | none => rw [hv] at hep; simp at hep
      | some item =>
          rw [hv] at hep
          exact ⟨p, item, hv, hep⟩

/-! ## Claim C5: tag filtering and the collected tag set -/

theorem buildModel_Endpoints (doc : OADoc) (cfg : BuildConfig) :
    (buildModel doc cfg).Endpoints = buildEndpoints doc cfg := rfl

theorem buildModel_Tags (doc : OADoc) (cfg : BuildConfig) :
    (buildModel doc cfg).Tags = collectSortedTags (buildEndpoints doc cfg) := rfl

theorem allowByTags_iff (tags : List String) (cfg : BuildConfig) :
    allowByTags tags cfg = true
      ↔ ((cfg.includeTags ≠ [] → ∃ t ∈ tags, t ∈ cfg.includeTags)
         ∧ (cfg.excludeTags ≠ [] → ∀ t ∈ tags, t ∉ cfg.excludeTags)) := by
  unfold allowByTags
  by_cases h1 : (!cfg.includeTags.isEmpty && !(tags.any fun t => cfg.includeTags.contains t)) = true
  · rw [if_pos h1]
    simp only [Bool.and_eq_true, Bool.not_eq_true', List.isEmpty_eq_false_iff_exists_mem,
      Bool.not_eq_true, List.any_eq_false] at h1
    constructor
    · intro hf; exact absurd hf (by simp)
    · rintro ⟨hinc, _⟩
      obtain ⟨⟨w, hw⟩, hnone⟩ := h1
      have hne : cfg.includeTags ≠ [] := by
        intro he; rw [he] at hw; simp at hw
      obtain ⟨t, ht, htin⟩ := hinc hne
      have := hnone t ht
      simp [htin] at this
  · rw [if_neg h1]
    by_cases h2 : (!cfg.excludeTags.isEmpty && (tags.any fun t => cfg.excludeTags.contains t)) = true
    · rw [if_pos h2]
      simp only [Bool.and_eq_true, Bool.not_eq_true', List.isEmpty_eq_false_iff_exists_mem,
        List.any_eq_true] at h2
      constructor
      · intro hf; exact absurd hf (by simp)
      · rintro ⟨_, hexc⟩
        obtain ⟨⟨w, hw⟩, t, ht, htin⟩ := h2
        have hne : cfg.excludeTags ≠ [] := by
          intro he; rw [he] at hw; simp at hw
        exact absurd (by simpa using htin) (hexc hne t ht)
    · rw [if_neg h2]
      simp only [Bool.and_eq_true, not_and, Bool.not_eq_true', Bool.not_eq_true] at h1 h2
      constructor
      · intro _
        constructor
        · intro hne
          have hle : cfg.includeTags.isEmpty = false := by
            cases hi : cfg.includeTags.isEmpty
            · rfl
            · exact absurd (by simpa using hi) hne
          have hne2 := h1 hle
          have hany : (tags.any fun t => cfg.includeTags.contains t) = true := by
            cases hx : (tags.any fun t => cfg.includeTags.contains t)
            · exact absurd hx hne2
            · rfl
          simp only [List.any_eq_true] at hany
          obtain ⟨t, ht, htc⟩ := hany
          exact ⟨t, ht, by simpa using htc⟩
        · intro hne t ht htin
          have hle : cfg.excludeTags.isEmpty = false := by
            cases hi : cfg.excludeTags.isEmpty
            · rfl
            · exact absurd (by simpa using hi) hne
          have hfa := h2 hle
          simp only [List.any_eq_false] at hfa
          have h3 := hfa t ht
          simp [htin] at h3
      · intro _; rfl

theorem opTags_trimmed (o : OAOperation) :
    ∀ s ∈ opTags o, trimSpace s = s ∧ s ≠ "" := by
  intro s hs
  unfold opTags at hs
  rcases List.mem_filterMap.mp hs with ⟨t, _, hf⟩
  dsimp only at hf
  split at hf
  · simp at hf
  · next hne =>
      have hst := Option.some.inj hf
      subst hst
      exact ⟨by simpa [safeStr] using trimSpace_idem t, by simpa [safeStr] using hne⟩

theorem endpoints_tags_trimmed {doc : OADoc} {cfg : BuildConfig} {ep : EndpointModel}
    (h : ep ∈ buildEndpoints doc cfg) :
    ∀ s ∈ ep.Tags, trimSpace s = s ∧ s ≠ "" := by
  obtain ⟨p, item, _, hmem⟩ := mem_buildEndpoints h
  obtain ⟨_, _, _, _, _, ho, _, htags, _⟩ := mem_buildEndpointsForPath hmem
  rw [htags]
  exact opTags_trimmed _

theorem mem_collectSortedTags (endpoints : List EndpointModel) (t : String) :
    t ∈ collectSortedTags endpoints
      ↔ ∃ ep ∈ endpoints, ∃ s ∈ ep.Tags, trimSpace s = t ∧ t ≠ "" := by
  unfold collectSortedTags
  rw [mem_sortStrings, List.mem_dedup, List.mem_flatMap]
  constructor
  · rintro ⟨ep, hep, hmem⟩
    rcases List.mem_filterMap.mp hmem with ⟨s, hs, hf⟩
    dsimp only at hf
    split at hf
    · simp at hf
    · next hne =>
        have := Option.some.inj hf
        subst this
        exact ⟨ep, hep, s, hs, rfl, hne⟩
  · rintro ⟨ep, hep, s, hs, htr, hne⟩
    refine ⟨ep, hep, List.mem_filterMap.mpr ⟨s, hs, ?_⟩⟩
    dsimp only
    rw [htr]
    simp [hne]

theorem collectSortedTags_sorted_lt (endpoints : List EndpointModel) :
    (collectSortedTags endpoints).Pairwise (fun a b => a.data < b.data) := by
  unfold collectSortedTags
  exact sortStrings_pairwise_lt (List.nodup_dedup _)

theorem collectSortedTags_nodup (endpoints : List EndpointModel) :
    (collectSortedTags endpoints).Nodup := by
  unfold collectSortedTags
  exact sortStrings_nodup (List.nodup_dedup _)

/-- What the built model guarantees about tag filtering and the collected
tag set, for one document and configuration. -/
def C5Post (doc : OADoc) (cfg : BuildConfig) : Prop :=
  (∀ ep ∈ (buildModel doc cfg).Endpoints, allowByTags ep.Tags cfg = true)
  ∧ (buildModel doc cfg).Tags
      = collectSortedTags (buildModel doc cfg).Endpoints
  ∧ ((buildModel doc cfg).Tags).Pairwise (fun a b => a.data < b.data)
  ∧ ((buildModel doc cfg).Tags).Nodup
  ∧ (∀ t, t ∈ (buildModel doc cfg).Tags
        ↔ ∃ ep ∈ (buildModel doc cfg).Endpoints, t ∈ ep.Tags)

/-- C5: an endpoint is retained only if it passes the include/exclude tag
policy — at least one included tag when the include set is non-empty, and
no excluded tag when the exclude set is non-empty, both checks independent
— and `ServiceModel.Tags` is exactly the sorted set of distinct tags
appearing on the retained endpoints. -/
theorem claim_C5 :
    (∀ (tags : List String) (cfg : BuildConfig),
        allowByTags tags cfg = true
          ↔ ((cfg.includeTags ≠ [] → ∃ t ∈ tags, t ∈ cfg.includeTags)
             ∧ (cfg.excludeTags ≠ [] → ∀ t ∈ tags, t ∉ cfg.excludeTags)))
    ∧ (∀ (doc : OADoc) (cfg : BuildConfig), C5Post doc cfg) := by
  refine ⟨allowByTags_iff, ?_⟩
  intro doc cfg
  refine ⟨?_, rfl, ?_, ?_, ?_⟩
  · intro ep hep
    rw [buildModel_Endpoints] at hep
    obtain ⟨p, item, _, hmem⟩ := mem_buildEndpoints hep
    exact (mem_buildEndpointsForPath hmem).2.1
  · rw [buildModel_Tags]
    exact collectSortedTags_sorted_lt _
  · rw [buildModel_Tags]
    exact collectSortedTags_nodup _
  · intro t
    rw [buildModel_Tags, buildModel_Endpoints, mem_collectSortedTags]
    constructor
    · rintro ⟨ep, hep, s, hs, htr, hne⟩
      have hinv := (endpoints_tags_trimmed hep) s hs
      rw [hinv.1] at htr
      subst htr
      exact ⟨ep, hep, hs⟩
    · rintro ⟨ep, hep, ht⟩
      have hinv := (endpoints_tags_trimmed hep) t ht
      exact ⟨ep, hep, t, ht, hinv.1, hinv.2⟩

/-! ## Claim C1: determinism and ordering -/

/-- The claimed endpoint order: by path (byte order), then by the fixed
method order GET, POST, PUT, DELETE, PATCH, HEAD, OPTIONS, TRACE. -/
def epOrder (a b : EndpointModel) : Prop :=
  a.Path.data < b.Path.data
  ∨ (a.Path = b.Path ∧ methodIdx a.Method < methodIdx b.Method)

/-- The Go-map invariants of a document: path keys are distinct, and every
operation's response map has distinct status keys. -/
def DocMapLike (doc : OADoc) : Prop :=
  (doc.Paths.map Prod.fst).Nodup
  ∧ ∀ p item, (p, some item) ∈ doc.Paths →
      ∀ pair ∈ pathOps item, ∀ o : OAOperation, pair.2 = some o →
        (o.Responses.map Prod.fst).Nodup

theorem respOf_status {rs : List (String × Option OAResponse)} {code : String}
    {x : ResponseModel} (h : respOf rs code = some x) : x.Status = code := by
  unfold respOf at h
  cases hv : amGet rs code with
  | none => rw [hv] at h; simp at h
  | some r? =>
      cases r? with
      | none => rw [hv] at h; simp at h
      | some r =>
          rw [hv] at h
          have := Option.some.inj h
          rw [← this]

theorem toResponseModels_pairwise (rs : List (String × Option OAResponse))
    (hnd : (rs.map Prod.fst).Nodup) :
    ((toResponseModels rs).map ResponseModel.Status).Pairwise
      (fun a b => a.data < b.data) := by
  unfold toResponseModels
  rw [List.pairwise_map, List.pairwise_filterMap]
  refine (sortStrings_pairwise_lt hnd).imp ?_
  intro a b hab x hx y hy
  rw [respOf_status hx, respOf_status hy]
  exact hab

theorem buildEndpointsForPath_pairwise' (cfg : BuildConfig) (p : String)
    (item : OAPathItem) :
    (buildEndpointsForPath cfg p item).Pairwise
      (fun a b => a.Path = b.Path ∧ methodIdx a.Method < methodIdx b.Method) := by
  unfold buildEndpointsForPath
  rw [List.pairwise_filterMap]
  refine (pathOps_pairwise item).imp ?_
  intro pr1 pr2 h12 b hb b' hb'
  obtain ⟨o1, _, hm1, hp1, _⟩ := endpointOfPair_inv hb
  obtain ⟨o2, _, hm2, hp2, _⟩ := endpointOfPair_inv hb'
  rw [hm1, hm2, hp1, hp2]
  exact ⟨rfl, h12⟩

theorem mem_endpointsForKey {doc : OADoc} {cfg : BuildConfig} {p : String}
    {ep : EndpointModel} (h : ep ∈ endpointsForKey doc cfg p) : ep.Path = p := by
  unfold endpointsForKey at h
  cases hv : amGet doc.Paths p with
  | none => rw [hv] at h; simp at h
  | some item? =>
      cases item? with
      | none => rw [hv] at h; simp at h
      | some item =>
          rw [hv] at h
          exact (mem_buildEndpointsForPath h).1

theorem endpointsForKey_pairwise (doc : OADoc) (cfg : BuildConfig) (p : String) :
    (endpointsForKey doc cfg p).Pairwise
      (fun a b => a.Path = b.Path ∧ methodIdx a.Method < methodIdx b.Method) := by
  unfold endpointsForKey
  cases amGet doc.Paths p with
  | none => simp
  | some item? =>
      cases item? with
      | none => simp
      | some item => exact buildEndpointsForPath_pairwise' cfg p item

/-- What the built model guarantees about determinism and ordering. -/
def C1Post (doc : OADoc) (cfg : BuildConfig) : Prop :=
  BuildServiceModel (some doc) cfg = .ok (buildModel doc cfg)
  ∧ (∀ doc2, doc2 = doc → buildModel doc2 cfg = buildModel doc cfg)
  ∧ ((buildModel doc cfg).Endpoints).Pairwise epOrder
  ∧ (∀ ep ∈ (buildModel doc cfg).Endpoints,
      (ep.Responses.map ResponseModel.Status).Pairwise (fun a b => a.data < b.data))

/-- C1: building is a deterministic function of its input, and the endpoint
list is sorted by path and then by the fixed method order, with each
endpoint's responses sorted by status-code string. -/
theorem claim_C1 (doc : OADoc) (cfg : BuildConfig) (h : DocMapLike doc) :
    C1Post doc cfg := by
  refine ⟨rfl, fun doc2 he => by rw [he], ?_, ?_⟩
  · rw [buildModel_Endpoints]
    unfold buildEndpoints
    rw [List.pairwise_flatMap]
    constructor
    · intro p _
      exact (endpointsForKey_pairwise doc cfg p).imp fun hab => Or.inr hab
    · refine (sortStrings_pairwise_lt h.1).imp ?_
      intro p1 p2 h12 x hx y hy
      exact Or.inl (by rw [mem_endpointsForKey hx, mem_endpointsForKey hy]; exact h12)
  · intro ep hep
    rw [buildModel_Endpoints] at hep
    obtain ⟨p, item, hv, hmem⟩ := mem_buildEndpoints hep
    obtain ⟨_, _, pair, hpair, o, ho, _, _, hresp⟩ := mem_buildEndpointsForPath hmem
    rw [hresp]
    exact toResponseModels_pairwise _ (h.2 p item (amGet_mem hv) pair hpair o ho)

/-! ## Witness inputs for C1 and C5 -/

def c1op1 : OAOperation :=
  ⟨["read"], "", "", [], [("200", some ⟨some "ok"⟩), ("404", some ⟨none⟩)]⟩

def c1op2 : OAOperation := ⟨["write"], "", "", [], [("201", some ⟨some "created"⟩)]⟩

def c1item : OAPathItem :=
  ⟨[], some c1op1, some c1op2, none, none, none, none, none, none⟩

def c1doc : OADoc := ⟨⟨"T", "1.0", ""⟩, [], [("/b", some c1item), ("/a", some c1item)]⟩

def c1cfg : BuildConfig := ⟨[], [], [], []⟩

theorem c1doc_mapLike : DocMapLike c1doc := by
  constructor
  · decide
  · intro p item hmem pair hpair o ho
    have hitem : item = c1item := by
      simp [c1doc] at hmem
      rcases hmem with ⟨_, hi⟩ | ⟨_, hi⟩ <;> exact hi
    subst hitem
    simp only [pathOps, c1item, List.mem_cons, List.not_mem_nil, or_false] at hpair
    rcases hpair with rfl | rfl | rfl | rfl | rfl | rfl | rfl | rfl
    · injection ho with ho2; subst ho2; decide
    · injection ho with ho2; subst ho2; decide
    · exact Option.noConfusion ho
    · exact Option.noConfusion ho
    · exact Option.noConfusion ho
    · exact Option.noConfusion ho
    · exact Option.noConfusion ho
    · exact Option.noConfusion ho

theorem claim_C1_witness : DocMapLike c1doc ∧ C1Post c1doc c1cfg :=
  ⟨c1doc_mapLike, claim_C1 c1doc c1cfg c1doc_mapLike⟩

def c5op1 : OAOperation := ⟨["read"], "", "", [], [("200", some ⟨some "ok"⟩)]⟩

def c5op2 : OAOperation := ⟨["admin"], "", "", [], []⟩

def c5item : OAPathItem :=
  ⟨[], some c5op1, some c5op2, none, none, none, none, none, none⟩

def c5doc : OADoc := ⟨⟨"t", "v", ""⟩, [], [("/a", some c5item)]⟩

def c5cfg : BuildConfig := ⟨["read"], ["admin"], [], []⟩

def c5ep : EndpointModel := ⟨"get /a", .get, "/a", "", "", ["read"], [], [⟨"200", "ok"⟩]⟩

theorem claim_C5_witness :
    allowByTags c5ep.Tags c5cfg = true
    ∧ ("read" ∈ (buildModel c5doc c5cfg).Tags
        ↔ ∃ ep ∈ (buildModel c5doc c5cfg).Endpoints, "read" ∈ ep.Tags) :=
  ⟨(claim_C5.2 c5doc c5cfg).1 c5ep
      (by rw [show (buildModel c5doc c5cfg).Endpoints = [c5ep] from rfl]; simp),
   ((claim_C5.2 c5doc c5cfg).2.2.2.2) "read"⟩

/-! ## loader.go: error taxonomy, settings, fetch, version detection, Load

I/O effects are oracles carried in a `LoadEnv`: the outcome of every HTTP
attempt, context cancellation, the filesystem, `yaml.Unmarshal` of raw
bytes into a generic top-level map, `yaml.Marshal`, the kin-openapi
loaders/validator/converter. Everything else is transcribed from the
source. -/

/-- Models `ErrorCode`. -/
inductive ErrorCode : Type where
  | InputError | NetworkError | ParseError | ValidationError | ConversionError
deriving DecidableEq, Repr

/-- Models `SpecError` (the `JSONPointer` and wrapped cause are
claims-orthogonal and omitted). -/
structure SpecErr : Type where
  Code : ErrorCode
  Message : String
  Location : String
deriving DecidableEq, Repr

/-- Models `Settings`; durations are integer nanoseconds. -/
structure Settings : Type where
  HTTPTimeout : Int
  MaxRetries : Int
  BackoffBase : Int
  AllowFileRefs : Bool
deriving DecidableEq, Repr

/-- Models `DefaultSettings` (10s timeout, 3 retries, 200ms base). -/
def DefaultSettings : Settings :=
  ⟨10000000000, 3, 200000000, false⟩

/-- The observable outcome of one HTTP attempt inside `fetchWithRetry`:
either the request errored, or a response with a status code arrived. -/
inductive AttemptResult : Type where
  | netErr : String → AttemptResult
  | http : Nat → RawBytes → AttemptResult

/-- Oracles for the effectful parts of `Load`. -/
structure LoadEnv : Type where
  cwd : String
  readFile : String → Except String RawBytes
  attempt : Nat → AttemptResult
  ctxDone : Nat → Bool
  parseTop : RawBytes → Option YMap
  marshal : YMap → RawBytes
  loadV3FromURI : String → Except String OADoc
  loadV3FromFile : String → Except String OADoc
  validate : OADoc → Option String
  convertV2 : RawBytes → Except String OADoc

/-- The observable result of `fetchWithRetry`: the returned value, how many
HTTP attempts were made, and the backoff waits actually slept (in order). -/
structure FetchOut : Type where
  result : Except String RawBytes
  attemptsMade : Nat
  waits : List Int

/-- One iteration of the retry loop (lines 296-325): a `< 300` response
returns the body; a network error or a `>= 500` / `429` status records the
failure, sleeps `backoff` (unless the context is done) and doubles it; any
other status fails immediately. -/
def fetchGo (env : LoadEnv) : Nat → Nat → Int → Option String → List Int → Nat → FetchOut
  | 0, _, _, lastErr, acc, made =>
      ⟨.error (lastErr.getD "fetch failed"), made, acc.reverse⟩
  | remaining + 1, i, backoff, lastErr, acc, made =>
      match env.attempt i with
      | .http s body =>
          if s < 300 then ⟨.ok body, made + 1, acc.reverse⟩
          else if 500 ≤ s ∨ s = 429 then
            if env.ctxDone i then ⟨.error "context canceled", made + 1, acc.reverse⟩
            else
              fetchGo env remaining (i + 1) (backoff * 2)
                (some ("transient http error " ++ toString s)) (backoff :: acc) (made + 1)
          else ⟨.error ("http " ++ toString s), made + 1, acc.reverse⟩
      | .netErr msg =>
          if env.ctxDone i then ⟨.error "context canceled", made + 1, acc.reverse⟩
          else
            fetchGo env remaining (i + 1) (backoff * 2) (some msg)
              (backoff :: acc) (made + 1)

/-- Models `fetchWithRetry`: a non-positive base defaults to 200ms, a
non-positive `MaxRetries` to one attempt. -/
def fetchWithRetry (env : LoadEnv) (settings : Settings) : FetchOut :=
  let backoff := if settings.BackoffBase ≤ 0 then 200000000 else settings.BackoffBase
  let attempts := if settings.MaxRetries ≤ 0 then 1 else settings.MaxRetries.toNat
  fetchGo env attempts 0 backoff none [] 0

/-- Models `detectSpecVersion` on the outcome of the permissive unmarshal:
an `openapi` value whose trimmed string form has the "3." marker wins; then
a `swagger` value with the "2." marker; non-string values read as `""`. -/
def detectSpecVersion (parsed : Option YMap) : Except String Nat :=
  match parsed with
  | none => .error "parse spec: unmarshal failed"
  | some root =>
      if hasPrefixStr (trimSpace (strField root "openapi")) "3." then .ok 3
      else if hasPrefixStr (trimSpace (strField root "swagger")) "2." then .ok 2
      else .error "spec: missing or unknown version"

/-- Models `canProceedDespiteValidation` for a non-nil error message. -/
def canProceedDespiteValidation (msg : String) : Bool :=
  let s := lowerStr msg
  containsSub s "unresolved ref" || containsSub s "found unresolved ref"

/-- Models `mapValidateOrParseErr`: heuristically classify as a parse error
when the message mentions parsing, otherwise as a validation error. -/
def mapValidateOrParseErr (msg loc : String) : SpecErr :=
  let lower := lowerStr msg
  let code := if containsSub lower "parse" || containsSub lower "invalid character"
    then ErrorCode.ParseError else ErrorCode.ValidationError
  ⟨code, msg, loc⟩

/-- The shared post-load validation policy of `Load` (the
`if err := doc.Validate(ctx); err != nil { if !canProceed... }` block used
at all four load sites). -/
def afterValidation (doc : OADoc) (vres : Option String) (loc : String) :
    Except SpecErr OADoc :=
  match vres with
  | none => .ok doc
  | some msg =>
      if canProceedDespiteValidation msg then .ok doc
      else .error (mapValidateOrParseErr msg loc)

/-- A parsed URL: scheme and host. -/
structure URLParts : Type where
  scheme : String
  host : String
deriving DecidableEq, Repr

/-- Scheme splitter for `url.Parse` as `Load` consumes it: an RFC-shaped
scheme followed by `://`, with the host extending to the first slash.
Inputs without that shape (relative/absolute paths, opaque URLs) yield
`none` and are treated as local paths, as in the source. -/
def splitSchemeAux : List Char → List Char → Option (List Char × List Char)
  | [], _ => none
  | ':' :: '/' :: '/' :: rest, acc => some (acc.reverse, rest)
  | c :: rest, acc => splitSchemeAux rest (c :: acc)

def validScheme : List Char → Bool
  | [] => false
  | c :: rest =>
      c.isAlpha && rest.all (fun d => d.isAlpha || d.isDigit || d = '+' || d = '-' || d = '.')

def parseURL (s : String) : Option URLParts :=
  match splitSchemeAux s.data [] with
  | none => none
  | some (schemeChars, rest) =>
      if validScheme schemeChars then
        some ⟨⟨schemeChars⟩, ⟨rest.takeWhile (fun c => c ≠ '/')⟩⟩
      else none

/-- Models `filepath.Abs` as the source uses it (`Clean` is immaterial to
the claims and omitted): relative paths are joined to the working
directory. -/
def absPath (cwd p : String) : String :=
  if p.data.head? = some '/' then p else cwd ++ "/" ++ p

/-- The common tail of `Load` once raw bytes are in hand: version
detection, the v3 load-and-validate path, and the v2
preprocess-convert-validate path. -/
def loadFromRaw (env : LoadEnv) (raw : RawBytes) (loc : String)
    (rootIsFile : Bool) : Except SpecErr OADoc :=
  match detectSpecVersion (env.parseTop raw) with
  | .error msg => .error ⟨.ParseError, msg, loc⟩
  | .ok 3 =>
      match (if rootIsFile then env.loadV3FromFile loc else env.loadV3FromURI loc) with
      | .error msg => .error (mapValidateOrParseErr msg loc)
      | .ok doc => afterValidation doc (env.validate doc) loc
  | .ok 2 =>
      let pre := preprocessV2ForCompatibility raw (env.parseTop raw) env.marshal
      match env.convertV2 pre.out with
      | .error msg => .error ⟨.ConversionError, "convert v2 to v3: " ++ msg, loc⟩
      | .ok doc => afterValidation doc (env.validate doc) loc
  | .ok _ => .error ⟨.ParseError, "spec: unknown or unsupported version", loc⟩

/-- The local-filesystem branch of `Load`. -/
def loadLocal (env : LoadEnv) (input : String) : Except SpecErr OADoc :=
  let abs := absPath env.cwd input
  match env.readFile abs with
  | .error e => .error ⟨.InputError, "read file failed: " ++ e, abs⟩
  | .ok raw => loadFromRaw env raw abs true

/-- Models `Load`: classify the input as URL or local path; `file://` URLs
(scheme plus non-empty host) are blocked outright, other non-http schemes
rejected, http/https fetched with retry; everything else is a local path. -/
def Load (env : LoadEnv) (input : String) (settings : Settings) :
    Except SpecErr OADoc :=
  if trimSpace input = "" then .error ⟨.InputError, "spec: input is empty", ""⟩
  else
    match parseURL input with
    | some u =>
        if u.host ≠ "" then
          let scheme := lowerStr u.scheme
          if scheme = "file" then
            .error ⟨.InputError, "spec: file URLs are blocked by default", input⟩
          else if scheme ≠ "http" ∧ scheme ≠ "https" then
            .error ⟨.InputError, "spec: unsupported URL scheme", input⟩
          else
            match (fetchWithRetry env settings).result with
            | .error e => .error ⟨.NetworkError, "fetch failed: " ++ e, input⟩
            | .ok raw => loadFromRaw env raw input false
        else loadLocal env input
    | none => loadLocal env input

/-! ## Claim C10: version detection precedence -/

theorem asString_nonstr {v : YVal} (h : ∀ s, v ≠ .ystr s) :
    asString (some v) = "" := by
  cases v with
  | ystr s => exact absurd rfl (h s)
  | ynull => rfl
  | ybool b => rfl
  | yint n => rfl
  | yarr l => rfl
  | ymap m => rfl

/-- C10: a map carrying both an `openapi` "3." marker and a `swagger` "2."
marker detects as version 3 (`openapi` takes precedence), and a non-string
value for either key is ignored — detection behaves as if the key were
absent, rather than failing on the bad value. -/
theorem claim_C10 (root : YMap) :
    (∀ s t, amGet root "openapi" = some (.ystr s)
        → hasPrefixStr (trimSpace s) "3." = true
        → amGet root "swagger" = some (.ystr t)
        → hasPrefixStr (trimSpace t) "2." = true
        → detectSpecVersion (some root) = .ok 3)
    ∧ (∀ v, amGet root "openapi" = some v → (∀ s, v ≠ .ystr s) →
        detectSpecVersion (some root)
          = detectSpecVersion (some (amErase root "openapi")))
    ∧ (∀ v, amGet root "swagger" = some v → (∀ s, v ≠ .ystr s) →
        detectSpecVersion (some root)
          = detectSpecVersion (some (amErase root "swagger"))) := by
  refine ⟨?_, ?_, ?_⟩
  · intro s t ho hps hw hpt
    unfold detectSpecVersion
    dsimp only
    have h1 : strField root "openapi" = s := by rw [strField, ho]; rfl
    rw [h1, if_pos hps]
  · intro v hv hnon
    have h1 : strField root "openapi" = "" := by
      rw [strField, hv]; exact asString_nonstr hnon
    have h2 : strField (amErase root "openapi") "openapi" = "" := by
      rw [strField, amGet_amErase_self]; rfl
    have h3 : strField (amErase root "openapi") "swagger" = strField root "swagger" := by
      rw [strField, strField, amGet_amErase_ne _ _ _ (by decide)]
    unfold detectSpecVersion
    dsimp only
    rw [h1, h2, h3]
  · intro v hv hnon
    have h1 : strField root "swagger" = "" := by
      rw [strField, hv]; exact asString_nonstr hnon
    have h2 : strField (amErase root "swagger") "swagger" = "" := by
      rw [strField, amGet_amErase_self]; rfl
    have h3 : strField (amErase root "swagger") "openapi" = strField root "openapi" := by
      rw [strField, strField, amGet_amErase_ne _ _ _ (by decide)]
    unfold detectSpecVersion
    dsimp only
    rw [h1, h2, h3]

def c10root : YMap := [("openapi", .ystr "3.0.3"), ("swagger", .ystr "2.0")]

def c10root2 : YMap := [("openapi", .yint 3), ("swagger", .ystr "2.0")]

theorem claim_C10_witness :
    (amGet c10root "openapi" = some (.ystr "3.0.3")
      ∧ amGet c10root "swagger" = some (.ystr "2.0")
      ∧ detectSpecVersion (some c10root) = .ok 3)
    ∧ (amGet c10root2 "openapi" = some (.yint 3)
      ∧ detectSpecVersion (some c10root2)
          = detectSpecVersion (some (amErase c10root2 "openapi"))) :=
  ⟨⟨rfl, rfl,
    (claim_C10 c10root).1 "3.0.3" "2.0" rfl (by decide) rfl (by decide)⟩,
   ⟨rfl,
    (claim_C10 c10root2).2.1 (.yint 3) rfl (fun s h => YVal.noConfusion h)⟩⟩

/-! ## Claim C6: validation failure policy (corrected) -/

theorem isPrefixOf_append_sub (a b : List Char) :
    ∀ l : List Char, (a ++ b).isPrefixOf l = true → hasSubChars l b = true := by
  induction a with
  | nil =>
      intro l h
      simp only [List.nil_append] at h
      cases l with
      | nil =>
          cases b with
          | nil => rfl
          | cons c r => simp [List.isPrefixOf] at h
      | cons c r =>
          unfold hasSubChars
          rw [h]
          rfl
  | cons x a' ih =>
      intro l h
      cases l with
      | nil => simp [List.isPrefixOf] at h
      | cons y r =>
          simp only [List.cons_append, List.isPrefixOf, Bool.and_eq_true] at h
          unfold hasSubChars
          rw [ih r h.2]
          simp

theorem hasSubChars_append_sub (a b : List Char) :
    ∀ hay : List Char, hasSubChars hay (a ++ b) = true → hasSubChars hay b = true := by
  intro hay
  induction hay with
  | nil =>
      intro h
      unfold hasSubChars at h ⊢
      simp at h
      simp [h.2]
  | cons c r ih =>
      intro h
      unfold hasSubChars at h
      rcases Bool.or_eq_true_iff.mp h with h | h
      · exact isPrefixOf_append_sub a b (c :: r) h
      · unfold hasSubChars
        rw [ih h]
        simp

theorem canProceed_eq (msg : String) :
    canProceedDespiteValidation msg = containsSub (lowerStr msg) "unresolved ref" := by
  unfold canProceedDespiteValidation
  cases h : containsSub (lowerStr msg) "unresolved ref" with
  | true => simp [h]
  | false =>
      cases h2 : containsSub (lowerStr msg) "found unresolved ref" with
      | false => simp [h, h2]
      | true =>
          exfalso
          have hsub : hasSubChars (lowerStr msg).data ("unresolved ref".data) = true := by
            have hsplit : ("found unresolved ref".data : List Char)
                = "found ".data ++ "unresolved ref".data := by decide
            have h2' : hasSubChars (lowerStr msg).data ("found unresolved ref".data) = true := h2
            rw [hsplit] at h2'
            exact hasSubChars_append_sub _ _ _ h2'
          rw [show containsSub (lowerStr msg) "unresolved ref"
              = hasSubChars (lowerStr msg).data ("unresolved ref".data) from rfl] at h
          rw [hsub] at h
          cases h

/-- What the validation-failure policy actually guarantees for a validation
error message. -/
def C6Post (doc : OADoc) (msg loc : String) : Prop :=
  (containsSub (lowerStr msg) "unresolved ref" = true →
     afterValidation doc (some msg) loc = .ok doc)
  ∧ (containsSub (lowerStr msg) "unresolved ref" = false →
     afterValidation doc (some msg) loc = .error (mapValidateOrParseErr msg loc)
     ∧ ((mapValidateOrParseErr msg loc).Code = ErrorCode.ValidationError
        ∨ (mapValidateOrParseErr msg loc).Code = ErrorCode.ParseError)
     ∧ ((mapValidateOrParseErr msg loc).Code = ErrorCode.ParseError
        ↔ (containsSub (lowerStr msg) "parse"
            || containsSub (lowerStr msg) "invalid character") = true))
  ∧ afterValidation doc none loc = .ok doc

/-- C6 (amended): a validation failure aborts unless the message is of the
"unresolved ref" class, in which case loading proceeds with the document;
the abort carries `ValidationError`, except that messages mentioning
"parse" or "invalid character" are classified as `ParseError`. -/
theorem claim_C6_amended (doc : OADoc) (msg loc : String) : C6Post doc msg loc := by
  refine ⟨?_, ?_, rfl⟩
  · intro h
    unfold afterValidation
    dsimp only
    rw [canProceed_eq, h]
    rfl
  · intro h
    refine ⟨?_, ?_, ?_⟩
    · unfold afterValidation
      dsimp only
      rw [canProceed_eq, h]
      rfl
    · unfold mapValidateOrParseErr
      dsimp only
      split
      · exact Or.inr rfl
      · exact Or.inl rfl
    · unfold mapValidateOrParseErr
      dsimp only
      constructor
      · intro hc
        by_contra hb
        rw [if_neg (by simpa using hb)] at hc
        cases hc
      · intro hb
        rw [if_pos hb]

def c6doc : OADoc := ⟨⟨"t", "v", ""⟩, [], []⟩

/-- Oracle environment in which validation reports an error mentioning
parsing (not of the unresolved-ref class). -/
def c6env : LoadEnv :=
  { cwd := "/w",
    readFile := fun p => if p = "/w/spec.yaml" then .ok [1] else .error "no such file",
    attempt := fun _ => .netErr "unused",
    ctxDone := fun _ => false,
    parseTop := fun b => if b = [1] then some [("openapi", .ystr "3.0.0")] else none,
    marshal := fun _ => [],
    loadV3FromURI := fun _ => .error "unused",
    loadV3FromFile := fun p => if p = "/w/spec.yaml" then .ok c6doc else .error "unused",
    validate := fun _ => some "failed to parse reference object",
    convertV2 := fun _ => .error "unused" }

/-- C6 counterexample: a validation failure outside the unresolved-ref
class whose message mentions parsing aborts the pipeline with `ParseError`,
not `ValidationError` as claimed. -/
theorem claim_C6_counterexample :
    canProceedDespiteValidation "failed to parse reference object" = false
    ∧ Load c6env "spec.yaml" DefaultSettings
        = .error ⟨.ParseError, "failed to parse reference object", "/w/spec.yaml"⟩
    ∧ ErrorCode.ParseError ≠ ErrorCode.ValidationError :=
  ⟨by decide, rfl, by decide⟩

theorem claim_C6_witness :
    afterValidation c6doc (some "found unresolved ref: Pet") "loc" = .ok c6doc
    ∧ afterValidation c6doc
        (some "responses object must contain at least one response code") "loc"
      = .error (mapValidateOrParseErr
          "responses object must contain at least one response code" "loc") :=
  ⟨(claim_C6_amended c6doc "found unresolved ref: Pet" "loc").1 (by decide),
   ((claim_C6_amended c6doc
      "responses object must contain at least one response code" "loc").2.1
      (by decide)).1⟩

/-! ## Claim C8: file scheme handling (corrected) -/

/-- What `Load` actually guarantees for inputs that parse as URLs with the
`file` scheme, and for file-URL-shaped inputs with an empty authority. -/
def C8Post (env : LoadEnv) (input : String) (settings : Settings)
    (u : URLParts) : Prop :=
  (lowerStr u.scheme = "file" → u.host ≠ "" →
     Load env input settings
       = .error ⟨.InputError, "spec: file URLs are blocked by default", input⟩)
  ∧ (u.host = "" → ∀ e, env.readFile (absPath env.cwd input) = .error e →
     Load env input settings
       = .error ⟨.InputError, "read file failed: " ++ e, absPath env.cwd input⟩)

/-- C8 (amended): a `file://` URL with a non-empty host is always rejected
with `InputError`; a `file:///path` input (empty authority) falls through
to the local-path branch, where an unreadable literal path also yields
`InputError` — but it is not rejected outright. -/
theorem claim_C8_amended (env : LoadEnv) (input : String) (settings : Settings)
    (u : URLParts) (hne : trimSpace input ≠ "")
    (hu : parseURL input = some u) : C8Post env input settings u := by
  constructor
  · intro hs hh
    unfold Load
    rw [if_neg hne, hu]
    dsimp only
    rw [if_pos hh, hs]
    rfl
  · intro hh e hre
    unfold Load
    rw [if_neg hne, hu]
    dsimp only
    rw [if_neg (by simpa using hh)]
    unfold loadLocal
    dsimp only
    rw [hre]

def c8doc : OADoc := ⟨⟨"x", "y", ""⟩, [], []⟩

/-- Oracle environment in which a file named literally `file:///spec.yaml`
(relative to the working directory) exists and holds a valid v3 document. -/
def c8env : LoadEnv :=
  { cwd := "/w",
    readFile := fun p => if p = "/w/file:///spec.yaml" then .ok [2] else .error "no",
    attempt := fun _ => .netErr "unused",
    ctxDone := fun _ => false,
    parseTop := fun b => if b = [2] then some [("openapi", .ystr "3.1.0")] else none,
    marshal := fun _ => [],
    loadV3FromURI := fun _ => .error "unused",
    loadV3FromFile := fun p => if p = "/w/file:///spec.yaml" then .ok c8doc else .error "u",
    validate := fun _ => none,
    convertV2 := fun _ => .error "u" }

/-- C8 counterexample: an input beginning with `file://` (the common
empty-authority form `file:///path`) is not rejected — `url.Parse` gives it
an empty host, so it is treated as a literal local path, and when a file by
that literal name exists, `Load` succeeds with no `InputError` at all. -/
theorem claim_C8_counterexample :
    hasPrefixStr "file:///spec.yaml" "file://" = true
    ∧ Load c8env "file:///spec.yaml" DefaultSettings = .ok c8doc :=
  ⟨by decide, rfl⟩

theorem claim_C8_witness :
    (trimSpace "file://host/s.yaml" ≠ ""
      ∧ parseURL "file://host/s.yaml" = some ⟨"file", "host"⟩)
    ∧ Load c8env "file://host/s.yaml" DefaultSettings
        = .error ⟨.InputError, "spec: file URLs are blocked by default",
            "file://host/s.yaml"⟩
    ∧ Load c8env "file:///missing.yaml" DefaultSettings
        = .error ⟨.InputError, "read file failed: " ++ "no",
            absPath c8env.cwd "file:///missing.yaml"⟩ :=
  ⟨⟨by decide, by decide⟩,
   (claim_C8_amended c8env "file://host/s.yaml" DefaultSettings ⟨"file", "host"⟩
      (by decide) (by decide)).1 (by decide) (by decide),
   (claim_C8_amended c8env "file:///missing.yaml" DefaultSettings ⟨"file", ""⟩
      (by decide) (by decide)).2 rfl "no" rfl⟩

/-! ## Claim C7: retry with exponential backoff -/

/-- A retryable failure: a request error, or an HTTP status `>= 500` or
`429`. -/
def transientAttempt : AttemptResult → Bool
  | .netErr _ => true
  | .http s _ => decide (500 ≤ s) || decide (s = 429)

/-- A non-retryable HTTP failure: any other error status (`300 <= s < 500`,
not `429`). -/
def nonRetryableHttp : AttemptResult → Bool
  | .netErr _ => false
  | .http s _ => decide (300 ≤ s) && decide (s < 500) && decide (s ≠ 429)

/-- The doubling backoff schedule starting at `b`. -/
def geomList : Int → Nat → List Int
  | _, 0 => []
  | b, n + 1 => b :: geomList (b * 2) n

/-- The total number of attempts made by `fetchWithRetry`. -/
def normAttempts (settings : Settings) : Nat :=
  if settings.MaxRetries ≤ 0 then 1 else settings.MaxRetries.toNat

/-- The effective base backoff of `fetchWithRetry`. -/
def normBackoff (settings : Settings) : Int :=
  if settings.BackoffBase ≤ 0 then 200000000 else settings.BackoffBase

theorem geomList_length (b : Int) (n : Nat) : (geomList b n).length = n := by
  induction n generalizing b with
  | zero => rfl
  | succ n ih => simp [geomList, ih]

theorem geomList_get (b : Int) (r k : Nat) (h : k < r) :
    (geomList b r)[k]? = some (b * 2 ^ k) := by
  induction r generalizing b k with
  | zero => omega
  | succ r ih =>
      cases k with
      | zero => simp [geomList]
      | succ k =>
          have hk : k < r := by omega
          rw [geomList]
          rw [List.getElem?_cons_succ]
          rw [ih (b * 2) k hk]
          congr 1
          rw [pow_succ]
          ring

theorem fetchGo_all_transient (env : LoadEnv)
    (htr : ∀ i, transientAttempt (env.attempt i) = true)
    (hctx : ∀ i, env.ctxDone i = false) :
    ∀ (r i : Nat) (b : Int) (le : Option String) (acc : List Int) (made : Nat),
      ∃ e, fetchGo env r i b le acc made
        = ⟨.error e, made + r, acc.reverse ++ geomList b r⟩ := by
  intro r
  induction r with
  | zero =>
      intro i b le acc made
      exact ⟨le.getD "fetch failed", by simp [fetchGo, geomList]⟩
  | succ r ih =>
      intro i b le acc made
      cases ha : env.attempt i with
      | netErr msg =>
          have hc := hctx i
          obtain ⟨e, he⟩ := ih (i + 1) (b * 2) (some msg) (b :: acc) (made + 1)
          refine ⟨e, ?_⟩
          rw [fetchGo, ha]
          dsimp only
          rw [hc]
          simp only [Bool.false_eq_true, if_neg, not_false_eq_true]
          rw [he]
          congr 1
          · omega
          · simp [geomList]
      | http s body =>
          have htri := htr i
          rw [ha] at htri
          simp only [transientAttempt, Bool.or_eq_true, decide_eq_true_eq] at htri
          have hns : ¬ s < 300 := by omega
          have hyes : (500 ≤ s ∨ s = 429) := htri
          have hc := hctx i
          obtain ⟨e, he⟩ := ih (i + 1) (b * 2)
            (some ("transient http error " ++ toString s)) (b :: acc) (made + 1)
          refine ⟨e, ?_⟩
          rw [fetchGo, ha]
          dsimp only
          rw [if_neg hns, if_pos hyes, hc]
          simp only [Bool.false_eq_true, if_neg, not_false_eq_true]
          rw [he]
          congr 1
          · omega
          · simp [geomList]

theorem fetchGo_until_nonretryable (env : LoadEnv)
    (hctx : ∀ i, env.ctxDone i = false) :
    ∀ (j r i : Nat) (b : Int) (le : Option String) (acc : List Int) (made : Nat),
      j < r →
      (∀ t, t < j → transientAttempt (env.attempt (i + t)) = true) →
      nonRetryableHttp (env.attempt (i + j)) = true →
      ∃ e, fetchGo env r i b le acc made
        = ⟨.error e, made + j + 1, acc.reverse ++ geomList b j⟩ := by
  intro j
  induction j with
  | zero =>
      intro r i b le acc made hjr htr hnr
      cases r with
      | zero => omega
      | succ r =>
          cases ha : env.attempt (i + 0) with
          | netErr msg => rw [ha] at hnr; simp [nonRetryableHttp] at hnr
          | http s body =>
              rw [ha] at hnr
              simp only [nonRetryableHttp, Bool.and_eq_true, decide_eq_true_eq] at hnr
              have hns : ¬ s < 300 := by omega
              have hno : ¬ (500 ≤ s ∨ s = 429) := by omega
              refine ⟨"http " ++ toString s, ?_⟩
              rw [fetchGo]
              rw [show env.attempt i = AttemptResult.http s body from by simpa using ha]
              dsimp only
              rw [if_neg hns, if_neg hno]
              simp [geomList]
  | succ j ih =>
      intro r i b le acc made hjr htr hnr
      cases r with
      | zero => omega
      | succ r =>
          have ht0 : transientAttempt (env.attempt (i + 0)) = true := htr 0 (by omega)
          have hshift : ∀ t, t < j → transientAttempt (env.attempt ((i + 1) + t)) = true := by
            intro t ht
            have := htr (t + 1) (by omega)
            rwa [show i + (t + 1) = (i + 1) + t from by omega] at this
          have hnr' : nonRetryableHttp (env.attempt ((i + 1) + j)) = true := by
            rwa [show i + (j + 1) = (i + 1) + j from by omega] at hnr
          have hc := hctx i
          cases ha : env.attempt i with
          | netErr msg =>
              obtain ⟨e, he⟩ := ih r (i + 1) (b * 2) (some msg) (b :: acc) (made + 1)
                (by omega) hshift hnr'
              refine ⟨e, ?_⟩
              rw [fetchGo, ha]
              dsimp only
              rw [hc]
              simp only [Bool.false_eq_true, if_neg, not_false_eq_true]
              rw [he]
              congr 1
              · omega
              · simp [geomList]
          | http s body =>
              rw [show i + 0 = i from rfl, ha] at ht0
              simp only [transientAttempt, Bool.or_eq_true, decide_eq_true_eq] at ht0
              have hns : ¬ s < 300 := by omega
              obtain ⟨e, he⟩ := ih r (i + 1) (b * 2)
                (some ("transient http error " ++ toString s)) (b :: acc) (made + 1)
                (by omega) hshift hnr'
              refine ⟨e, ?_⟩
              rw [fetchGo, ha]
              dsimp only
              rw [if_neg hns, if_pos ht0, hc]
              simp only [Bool.false_eq_true, if_neg, not_false_eq_true]
              rw [he]
              congr 1
              · omega
              · simp [geomList]

/-- C7: all-transient failures are retried up to `MaxRetries` attempts in
total, each retry preceded by a wait that doubles the base delay; a
non-retryable HTTP status fails immediately with no further attempt and no
backoff wait; an exhausted URL fetch surfaces as a `NetworkError`. -/
theorem claim_C7 :
    (∀ (env : LoadEnv) (settings : Settings),
       (∀ i, transientAttempt (env.attempt i) = true) →
       (∀ i, env.ctxDone i = false) →
       (∃ e, (fetchWithRetry env settings).result = .error e)
       ∧ (fetchWithRetry env settings).attemptsMade = normAttempts settings
       ∧ (fetchWithRetry env settings).waits.length = normAttempts settings
       ∧ (∀ k, k < normAttempts settings →
           (fetchWithRetry env settings).waits[k]?
             = some (normBackoff settings * 2 ^ k)))
    ∧ (∀ (env : LoadEnv) (settings : Settings) (j : Nat),
         j < normAttempts settings →
         (∀ i, i < j → transientAttempt (env.attempt i) = true) →
         nonRetryableHttp (env.attempt j) = true →
         (∀ i, env.ctxDone i = false) →
         (∃ e, (fetchWithRetry env settings).result = .error e)
         ∧ (fetchWithRetry env settings).attemptsMade = j + 1
         ∧ (fetchWithRetry env settings).waits.length = j)
    ∧ (∀ (env : LoadEnv) (settings : Settings) (input : String) (u : URLParts),
         trimSpace input ≠ "" →
         parseURL input = some u → u.host ≠ "" → lowerStr u.scheme = "http" →
         (∀ i, transientAttempt (env.attempt i) = true) →
         (∀ i, env.ctxDone i = false) →
         ∃ e, Load env input settings = .error e
           ∧ e.Code = ErrorCode.NetworkError) := by
  have hfetch : ∀ (env : LoadEnv) (settings : Settings),
      (∀ i, transientAttempt (env.attempt i) = true) →
      (∀ i, env.ctxDone i = false) →
      ∃ e, fetchWithRetry env settings
        = ⟨.error e, normAttempts settings,
           geomList (normBackoff settings) (normAttempts settings)⟩ := by
    intro env settings htr hctx
    obtain ⟨e, he⟩ := fetchGo_all_transient env htr hctx
      (normAttempts settings) 0 (normBackoff settings) none [] 0
    refine ⟨e, ?_⟩
    rw [show fetchWithRetry env settings
        = fetchGo env (normAttempts settings) 0 (normBackoff settings) none [] 0
        from rfl, he]
    simp
  refine ⟨?_, ?_, ?_⟩
  · intro env settings htr hctx
    obtain ⟨e, he⟩ := hfetch env settings htr hctx
    rw [he]
    refine ⟨⟨e, rfl⟩, rfl, geomList_length _ _, ?_⟩
    intro k hk
    exact geomList_get _ _ k hk
  · intro env settings j hj htr hnr hctx
    obtain ⟨e, he⟩ := fetchGo_until_nonretryable env hctx j (normAttempts settings)
      0 (normBackoff settings) none [] 0 hj (by simpa using htr) (by simpa using hnr)
    rw [show fetchWithRetry env settings
        = fetchGo env (normAttempts settings) 0 (normBackoff settings) none [] 0
        from rfl, he]
    exact ⟨⟨e, rfl⟩, by simp, by simp [geomList_length]⟩
  · intro env settings input u hne hu hh hs htr hctx
    obtain ⟨e, he⟩ := hfetch env settings htr hctx
    refine ⟨⟨.NetworkError, "fetch failed: " ++ e, input⟩, ?_, rfl⟩
    unfold Load
    rw [if_neg hne, hu]
    dsimp only
    rw [if_pos hh, hs]
    rw [if_neg (by decide)]
    rw [if_neg (by decide)]
    rw [he]

def c7env : LoadEnv :=
  { cwd := "",
    readFile := fun _ => .error "u",
    attempt := fun _ => .netErr "connection refused",
    ctxDone := fun _ => false,
    parseTop := fun _ => none,
    marshal := fun _ => [],
    loadV3FromURI := fun _ => .error "u",
    loadV3FromFile := fun _ => .error "u",
    validate := fun _ => none,
    convertV2 := fun _ => .error "u" }

def c7envB : LoadEnv :=
  { c7env with attempt := fun i => if i = 0 then .netErr "reset" else .http 404 [] }

theorem claim_C7_witness :
    ((∃ e, (fetchWithRetry c7env DefaultSettings).result = .error e)
      ∧ (fetchWithRetry c7env DefaultSettings).attemptsMade = normAttempts DefaultSettings
      ∧ (fetchWithRetry c7env DefaultSettings).waits.length = normAttempts DefaultSettings
      ∧ (∀ k, k < normAttempts DefaultSettings →
          (fetchWithRetry c7env DefaultSettings).waits[k]?
            = some (normBackoff DefaultSettings * 2 ^ k)))
    ∧ ((∃ e, (fetchWithRetry c7envB DefaultSettings).result = .error e)
      ∧ (fetchWithRetry c7envB DefaultSettings).attemptsMade = 1 + 1
      ∧ (fetchWithRetry c7envB DefaultSettings).waits.length = 1)
    ∧ (∃ e, Load c7env "http://example.com/a.yaml" DefaultSettings = .error e
        ∧ e.Code = ErrorCode.NetworkError) :=
  ⟨claim_C7.1 c7env DefaultSettings (fun _ => rfl) (fun _ => rfl),
   claim_C7.2.1 c7envB DefaultSettings 1 (by decide)
     (fun i hi => by
       have h0 : i = 0 := by omega
       subst h0
       rfl)
     rfl (fun _ => rfl),
   claim_C7.2.2 c7env DefaultSettings "http://example.com/a.yaml"
     ⟨"http", "example.com"⟩ (by decide) (by decide) (by decide) (by decide)
     (fun _ => rfl) (fun _ => rfl)⟩
